import Mathlib

/-!
Verification of the FASTQC report parser and collation engine
(`compile_fastqc_data.py`).

The Python source is shallowly embedded over `List Char` strings:
`fastqc_report` (the per-file parser), `fastqc_module` (one parsed
section) and `fastqc_collation` (discovery + per-module output writing)
are translated definition by definition.  File-system effects are made
explicit through an `FS` state threaded through `fastqc_collation.process`;
Python exceptions become an explicit `Err` sum returned in `Except`.
-/

/-- Python strings, modelled as lists of characters (Python indexes and
slices strings by code point, which `List Char` mirrors exactly). -/
abbrev Str := List Char

/-- Python exceptions raised by the source.  `valueError` covers
`ValueError` (and the `ValueError`-like failures of `numpy`/`pandas`
materialization), `keyError` covers dictionary/Series lookup failures,
`nameError` an unbound loop-local variable, `indexError` the
out-of-range list index `self.fastqcfiles[0]`. -/
inductive Err where
  | valueError (msg : Str)
  | keyError (key : Str)
  | nameError
  | indexError
deriving DecidableEq

/-- View of `Except` as a sum, used only to derive decidable equality. -/
def exceptToSum {ε α : Type} : Except ε α → Sum ε α
  | .error e => .inl e
  | .ok a => .inr a

instance {ε α : Type} [DecidableEq ε] [DecidableEq α] : DecidableEq (Except ε α) :=
  fun a b =>
    decidable_of_iff (exceptToSum a = exceptToSum b)
      (by cases a <;> cases b <;> simp [exceptToSum])

/-- Python `str.split(sep)` for a one-character separator: Python semantics,
in particular `"".split(sep) == [""]` and empty pieces are kept. -/
def splitChar (sep : Char) : Str → List Str
  | [] => [[]]
  | c :: rest =>
    match splitChar sep rest with
    | [] => [[]]
    | f :: fs => if c = sep then [] :: f :: fs else (c :: f) :: fs

/-- Model of `line.split('\t')` as used throughout the parser. -/
def splitTab (s : Str) : List Str := splitChar '\t' s

/-- Model of `line.strip()`: remove leading and trailing whitespace. -/
def pyStrip (s : Str) : Str :=
  ((s.dropWhile Char.isWhitespace).reverse.dropWhile Char.isWhitespace).reverse

/-- Model of `f.readlines()` (with the trailing `'\n'` of each line already
stripped): split the file content on `'\n'`, a final newline produces no
extra empty line. -/
def pyReadLines (content : Str) : List Str :=
  let parts := splitChar '\n' content
  if parts.getLast? = some [] then parts.dropLast else parts

/-- Model of `sep.join(fields)`. -/
def joinSep (sep : Str) : List Str → Str
  | [] => []
  | [f] => f
  | f :: g :: rest => f ++ sep ++ joinSep sep (g :: rest)

def mmOpen : Str := ">>".toList

def mmEnd : Str := ">>END_MODULE".toList

def basicStats : Str := "Basic Statistics".toList

/-- Test `line[:2] == ">>" and line[:12] != ">>END_MODULE"` (source line 160). -/
def isOpenMarker (line : Str) : Bool :=
  mmOpen.isPrefixOf line && !(mmEnd.isPrefixOf line)

/-- Test `line[:1] == "#"` (source line 163). -/
def isHashMarker (line : Str) : Bool :=
  match line with
  | '#' :: _ => true
  | _ => false

/-- Test `line == ">>END_MODULE"` (source line 166). -/
def isEndMarker (line : Str) : Bool := line == mmEnd

/-- Ordered insert-or-overwrite into a Python `dict` modelled as an
association list: an existing key keeps its position, a new key is
appended at the end (Python 3 insertion-ordered dict assignment). -/
def dictUpsert {α : Type} : List (Str × α) → Str → α → List (Str × α)
  | [], k, v => [(k, v)]
  | (k', v') :: rest, k, v =>
    if k' = k then (k, v) :: rest else (k', v') :: dictUpsert rest k v

/-- Lookup `dict[k]` returning `none` instead of raising `KeyError`. -/
def dictGet {α : Type} (l : List (Str × α)) (k : Str) : Option α :=
  (l.find? (fun p => p.1 == k)).map (fun p => p.2)

/-- The two `pandas` shapes a module's data takes: `Basic Statistics`
becomes a `Series` (ordered label/value pairs), every other module a
`DataFrame` (column names and data rows). -/
inductive ModData where
  | series (pairs : List (Str × Str))
  | frame (cols : List Str) (rows : List (List Str))
deriving DecidableEq

/-- State of `class fastqc_module` (source lines 187-200). -/
structure fastqc_module where
  module : Str
  status : Str
  cols : List Str
  data : ModData
deriving DecidableEq

/-- Model of `array(lines)` followed by `lines_array[:,0]` / `lines_array[:,1]`
(source lines 197-198): numpy builds a 2-D array only from a nonempty
rectangular list of rows, and column 1 exists only for width ≥ 2;
anything else raises. -/
def npPairs (lines : List (List Str)) : Option (List (Str × Str)) :=
  match lines with
  | [] => none
  | r0 :: _ =>
    if lines.all (fun r => r.length == r0.length) && decide (2 ≤ r0.length) then
      some (lines.map (fun r => (r.headD [], (r.drop 1).headD [])))
    else none

/-- Constructor `fastqc_module.__init__` (source lines 190-200): the distinguished
`Basic Statistics` module materializes as a key-value `Series`
(keys = first column, values = second column, in row order), every
other module as a `DataFrame` over the header columns. -/
def fastqc_module.make (module status : Str) (cols : List Str)
    (lines : List (List Str)) : Except Err fastqc_module :=
  if module = basicStats then
    match npPairs lines with
    | some pairs => .ok ⟨module, status, cols, .series pairs⟩
    | none => .error (.valueError ("numpy".toList))
  else
    .ok ⟨module, status, cols, .frame cols lines⟩

/-- The loop-local scan state of `_process_fastqc_report` (source lines
156-171): `module`/`status` are assigned together by the `>>` branch,
`cols` by the `#` branch (all three persist across iterations and are
never cleared), `buf` is the `lines` row buffer, `mods` the
`self.modules` dict. -/
structure ParseState where
  modstat : Option (Str × Str)
  cols : Option (List Str)
  buf : List (List Str)
  mods : List (Str × fastqc_module)
deriving DecidableEq

def initialParseState : ParseState := ⟨none, none, [], []⟩

/-- One iteration of the `for line in f.readlines()` loop of
`_process_fastqc_report` (source lines 158-171).  Note the final branch:
a non-marker line is appended to the row buffer unconditionally — the
source keeps no inside/outside-module state. -/
def pstep (st : ParseState) (raw : Str) : Except Err ParseState :=
  let line := pyStrip raw
  if isOpenMarker line then
    match splitTab (line.drop 2) with
    | [m, s] => .ok { st with modstat := some (m, s) }
    | _ => .error (.valueError ("unpack".toList))
  else if isHashMarker line then
    .ok { st with cols := some (splitTab (line.drop 1)) }
  else if isEndMarker line then
    match st.modstat, st.cols with
    | some (m, s), some cs =>
      match fastqc_module.make m s cs st.buf with
      | .ok md => .ok { st with mods := dictUpsert st.mods m md, buf := [] }
      | .error e => .error e
    | _, _ => .error .nameError
  else
    .ok { st with buf := st.buf ++ [splitTab line] }

/-- The whole line loop of `_process_fastqc_report`. -/
def runLines : ParseState → List Str → Except Err ParseState
  | st, [] => .ok st
  | st, l :: rest =>
    match pstep st l with
    | .ok st' => runLines st' rest
    | .error e => .error e

/-- Model of `int(s)` on a decimal literal (optionally signed, surrounding
whitespace allowed), `none` for anything unparseable. -/
def parseNatAux : List Char → Nat → Option Nat
  | [], acc => some acc
  | c :: rest, acc =>
    if '0' ≤ c ∧ c ≤ '9' then parseNatAux rest (acc * 10 + (c.toNat - '0'.toNat))
    else none

def pyIntOf (s : Str) : Option Int :=
  match pyStrip s with
  | [] => none
  | '-' :: rest =>
    if rest = [] then none else (parseNatAux rest 0).map (fun n => -(n : Int))
  | '+' :: rest =>
    if rest = [] then none else (parseNatAux rest 0).map (fun n => (n : Int))
  | ds => (parseNatAux ds 0).map (fun n => (n : Int))

def pyIntE (s : Str) : Except Err Int :=
  match pyIntOf s with
  | some n => .ok n
  | none => .error (.valueError ("int".toList))

/-- Lookup `series[k]` on the `Basic Statistics` Series (first matching label;
`KeyError` when absent). -/
def seriesGet (pairs : List (Str × Str)) (k : Str) : Except Err Str :=
  match pairs.find? (fun p => p.1 == k) with
  | some p => .ok p.2
  | none => .error (.keyError k)

def fastqSuffix : Str := ".fastq".toList

/-- Whether `pat` occurs in `cs` at index `i`. -/
def occAt (cs pat : Str) (i : Nat) : Bool := pat.isPrefixOf (cs.drop i)

/-- All indices at which `pat` occurs in `cs`, in increasing order. -/
def occIdxs (cs pat : Str) : List Nat :=
  (List.range cs.length).filter (occAt cs pat)

/-- Model of `re.sub('(.*)\.fastq.*', '\\1', filename)` (source line 180) on
newline-free input: the greedy `(.*)` backtracks to the LAST occurrence
of `".fastq"`, the trailing `.*` swallows the rest, so the whole string
is replaced by everything before the last `".fastq"`; with no
occurrence the string is returned unchanged. -/
def reSubFastqStub (filename : Str) : Str :=
  match (occIdxs filename fastqSuffix).getLast? with
  | some i => filename.take i
  | none => filename

/-- The file system visible to the program: which directories exist and
which files exist with what content.  (Permissions and other OS-level
failure modes are out of scope, as is the internal structure of paths —
`os.walk` results are supplied as data, see `fastqc_collation.init`.) -/
structure FS where
  dirs : Str → Bool
  files : Str → Option Str

def FS.isfile (fs : FS) (p : Str) : Bool := (fs.files p).isSome

def FS.remove (fs : FS) (p : Str) : FS :=
  { fs with files := fun q => if q = p then none else fs.files q }

def FS.write (fs : FS) (p c : Str) : FS :=
  { fs with files := fun q => if q = p then some c else fs.files q }

/-- Model of `open(p, mode='a')` then write: creates the file when missing. -/
def FS.append (fs : FS) (p chunk : Str) : FS :=
  fs.write p (((fs.files p).getD []) ++ chunk)

/-- Model of `os.makedirs(out_dir)` with the `EEXIST`-tolerant wrapper
`_make_sure_path_exists` (source lines 130-135). -/
def FS.makedirs (fs : FS) (d : Str) : FS :=
  { fs with dirs := fun q => if q = d then true else fs.dirs q }

/-- State of `class fastqc_report` (source lines 138-184): path, parsed module
dict, and the summary fields derived from `Basic Statistics`. -/
structure fastqc_report where
  fastqcpath : Str
  modules : List (Str × fastqc_module)
  seq_total : Int
  seq_filtered : Int
  seq_length : Int
  seq_gc : Int
  filename : Str
  filestub : Str
deriving DecidableEq

/-- The `Series` pairs of a parsed module; a `DataFrame` module never
reaches the places this is used (the parser materializes a `Series`
exactly for the `Basic Statistics` name). -/
def seriesPairs (md : fastqc_module) : List (Str × Str) :=
  match md.data with
  | .series ps => ps
  | .frame _ _ => []

/-- Constructor `fastqc_report.__init__` (source lines 142-148) together with
`_check_file_exists`, `_process_fastqc_report` and
`_process_basic_stats` (source lines 150-180): check existence, run the
line scan, then derive the summary integers, the declared filename and
the stub from the `Basic Statistics` Series. -/
def fastqc_report.init (fs : FS) (p : Str) : Except Err fastqc_report := do
  match fs.files p with
  | none => .error (.valueError ("File doesn't exist".toList))
  | some content => do
    let st ← runLines initialParseState (pyReadLines content)
    let bs ← match dictGet st.mods basicStats with
             | some md => Except.ok md
             | none => .error (.keyError basicStats)
    let pairs := seriesPairs bs
    let seq_total ← pyIntE (← seriesGet pairs ("Total Sequences".toList))
    let seq_filtered ← pyIntE (← seriesGet pairs ("Filtered Sequences".toList))
    let seq_length ← pyIntE (← seriesGet pairs ("Sequence length".toList))
    let seq_gc ← pyIntE (← seriesGet pairs ("%GC".toList))
    let filename ← seriesGet pairs ("Filename".toList)
    .ok ⟨p, st.mods, seq_total, seq_filtered, seq_length, seq_gc,
         filename, reSubFastqStub filename⟩

/-- Model of `os.path.join(root, name)` for the shapes produced by `os.walk`
(a directory path without trailing separator and a bare filename). -/
def pyJoin (root name : Str) : Str := root ++ ("/".toList) ++ name

/-- File discovery of `fastqc_collation.__init__` (source lines 49-55):
walk entries are the `(root, name)` pairs yielded by `os.walk` (in walk
order), every entry whose name equals the expected report filename is
collected as a full path, and the collected list is sorted
(`list.sort()` = lexicographic order on the path strings). -/
def discover (walk : List (Str × Str)) (fastqc_filename : Str) : List Str :=
  List.insertionSort (· ≤ ·)
    ((walk.filter (fun e => e.2 == fastqc_filename)).map
      (fun e => pyJoin e.1 fastqc_filename))

/-- State of `class fastqc_collation` (source lines 31-57). -/
structure fastqc_collation where
  project_root : Str
  out_dir : Str
  fastqc_filename : Str
  sep : Str
  fastqcfiles : List Str
  modules : List Str
deriving DecidableEq

/-- Constructor `fastqc_collation.__init__` (source lines 38-57): default the output
directory to the project root, discover and sort the report files, then
read the module universe from the first discovered file
(`self.fastqcfiles[0]` raises `IndexError` when discovery found
nothing). -/
def fastqc_collation.init (walk : List (Str × Str)) (fs : FS) (project_root : Str)
    (out_dir : Option Str) (fastqc_filename : Str) (sep : Str) :
    Except Err fastqc_collation :=
  let od := out_dir.getD project_root
  let fqfiles := discover walk fastqc_filename
  match fqfiles with
  | [] => .error .indexError
  | f0 :: _ => do
    let r ← fastqc_report.init fs f0
    .ok ⟨project_root, od, fastqc_filename, sep, fqfiles, r.modules.map (fun km => km.1)⟩

/-- The dynamically-typed `modules` argument of `process` (source lines
60, 74-78): `None`, a bare string, or a list of names. -/
inductive ModulesArg where
  | all
  | one (s : Str)
  | many (l : List Str)

/-- Resolution of the `modules` argument (source lines 74-78): `None`
means every module of the universe, a bare string is wrapped into a
one-element list. -/
def modulesOf (c : fastqc_collation) : ModulesArg → List Str
  | .all => c.modules
  | .one s => [s]
  | .many l => l

/-- Output suffix selection (source lines 70-72). -/
def outSuffix (sep : Str) : Str :=
  if sep = (",".toList) then (".csv".toList) else (".txt".toList)

/-- Path `module + '_fastqc_collation' + suffix` joined under the output
directory (source lines 81-82). -/
def outPath (c : fastqc_collation) (m : Str) : Str :=
  pyJoin c.out_dir (m ++ ("_fastqc_collation".toList) ++ outSuffix c.sep)

/-- The "remove old files if present" loop of `process` (source lines
80-85). -/
def removeOld (c : fastqc_collation) (fs : FS) (modules : List Str) : FS :=
  modules.foldl
    (fun fs m => let p := outPath c m; if fs.isfile p then fs.remove p else fs) fs

/-- Assignments `data['Filestub'] = ...; data['Filepath'] = ...` on the
`Basic Statistics` Series (source lines 108-109): label assignment
overwrites an existing label in place and appends a new one. -/
def seriesWithProv (pairs : List (Str × Str)) (stub path : Str) :
    List (Str × Str) :=
  dictUpsert (dictUpsert pairs ("Filestub".toList) stub) ("Filepath".toList) path

/-- Assignment `df[name] = scalar` on a `DataFrame`: overwrite the column when the
name exists, otherwise append a new column holding the scalar in every
row. -/
def dfSetCol (cols : List Str) (rows : List (List Str)) (name v : Str) :
    List Str × List (List Str) :=
  match cols.findIdx? (fun c => c == name) with
  | some j => (cols, rows.map (fun r => r.set j v))
  | none => (cols ++ [name], rows.map (fun r => r ++ [v]))

/-- Assignments `data['Filestub'] = ...; data['Filepath'] = ...` on a `DataFrame`
(source lines 108-109). -/
def frameWithProv (cols : List Str) (rows : List (List Str))
    (stub path : Str) : List Str × List (List Str) :=
  let p1 := dfSetCol cols rows ("Filestub".toList) stub
  dfSetCol p1.1 p1.2 ("Filepath".toList) path

def nl : Str := ['\n']

/-- Method `_process_mod` (source lines 99-127): guard the module name against
the universe, attach the provenance fields, then either write the file
fresh with a header line (`mode='w'`) or append the data lines only
(`mode='a'`).  `pandas.to_csv` is modelled as separator-joined lines
(fields are newline-free by construction, so the line structure is
faithful; csv quoting of separator characters inside fields is out of
scope).  The source dispatches on `module == 'Basic Statistics'`; the
parser materializes a `Series` exactly for that module name, so
dispatching on the stored data shape is the same test. -/
def _process_mod (c : fastqc_collation) (fs : FS) (filepath : Str)
    (qc : fastqc_report) (module : Str) (out : Str) (append : Bool) :
    Except Err Unit × FS :=
  if module ∈ c.modules then
    match dictGet qc.modules module with
    | none => (.error (.keyError module), fs)
    | some md =>
      match md.data with
      | .series pairs =>
        let pairs := seriesWithProv pairs qc.filestub filepath
        let header := joinSep c.sep (pairs.map (fun p => p.1)) ++ nl
        let dataLine := joinSep c.sep (pairs.map (fun p => p.2)) ++ nl
        if append then (.ok (), fs.append out dataLine)
        else (.ok (), fs.write out (header ++ dataLine))
      | .frame cols rows =>
        let cr := frameWithProv cols rows qc.filestub filepath
        let header := joinSep c.sep cr.1 ++ nl
        let body := (cr.2.map (fun r => joinSep c.sep r ++ nl)).flatten
        if append then (.ok (), fs.append out body)
        else (.ok (), fs.write out (header ++ body))
  else (.error (.keyError ("Module not found.".toList)), fs)

/-- The inner `for module in modules` loop of `process` (source lines
89-95): mode is append exactly when the output file already exists. -/
def processMods (c : fastqc_collation) (filepath : Str) (qc : fastqc_report) :
    FS → List Str → Except Err Unit × FS
  | fs, [] => (.ok (), fs)
  | fs, m :: rest =>
    let out := outPath c m
    match _process_mod c fs filepath qc m out (fs.isfile out) with
    | (.ok _, fs') => processMods c filepath qc fs' rest
    | r => r

/-- The outer `for f in self.fastqcfiles` loop of `process` (source
lines 87-95): parse each file once and feed the parse to every
requested module.  An uncaught exception aborts the run, leaving the
file system as already written. -/
def processFiles (c : fastqc_collation) (modules : List Str) :
    FS → List Str → Except Err Unit × FS
  | fs, [] => (.ok (), fs)
  | fs, f :: rest =>
    match fastqc_report.init fs f with
    | .error e => (.error e, fs)
    | .ok qc =>
      match processMods c f qc fs modules with
      | (.ok _, fs') => processFiles c modules fs' rest
      | r => r

/-- Method `fastqc_collation.process` (source lines 60-96): ensure the output
directory exists, resolve the `modules` argument, delete stale output
files, then stream every discovered file into every requested module's
output file. -/
def fastqc_collation.process (c : fastqc_collation) (fs : FS)
    (arg : ModulesArg) : Except Err Unit × FS :=
  let fs1 := fs.makedirs c.out_dir
  let modules := modulesOf c arg
  let fs2 := removeOld c fs1 modules
  processFiles c modules fs2 c.fastqcfiles

/-- The wasteful strategy the spec also allows: re-parse the report file
once per requested module instead of reusing one parse per file.
Modelled from the spec's words ("re-parsing per module-per-file is
acceptable but wasteful"); compared against the source's
parse-once-per-file `processMods`/`processFiles`. -/
def processModsReparse (c : fastqc_collation) (filepath : Str) :
    FS → List Str → Except Err Unit × FS
  | fs, [] => (.ok (), fs)
  | fs, m :: rest =>
    match fastqc_report.init fs filepath with
    | .error e => (.error e, fs)
    | .ok qc =>
      let out := outPath c m
      match _process_mod c fs filepath qc m out (fs.isfile out) with
      | (.ok _, fs') => processModsReparse c filepath fs' rest
      | r => r

/-- Outer file loop of the re-parsing variant. -/
def processFilesReparse (c : fastqc_collation) (modules : List Str) :
    FS → List Str → Except Err Unit × FS
  | fs, [] => (.ok (), fs)
  | fs, f :: rest =>
    match processModsReparse c f fs modules with
    | (.ok _, fs') => processFilesReparse c modules fs' rest
    | r => r

/-- Variant of `process` built on the re-parsing strategy (same prologue as the
source's `process`, the per-file parse moved inside the module loop). -/
def fastqc_collation.processReparse (c : fastqc_collation) (fs : FS)
    (arg : ModulesArg) : Except Err Unit × FS :=
  let fs1 := fs.makedirs c.out_dir
  let modules := modulesOf c arg
  let fs2 := removeOld c fs1 modules
  processFilesReparse c modules fs2 c.fastqcfiles

/-- Parse every listed file against one fixed file-system state. -/
def parseAll (fs : FS) : List Str → Except Err (List fastqc_report)
  | [] => .ok []
  | f :: rest => do
    let qc ← fastqc_report.init fs f
    let qcs ← parseAll fs rest
    .ok (qc :: qcs)

/-- Two file systems agree on the contents of every path in `S`. -/
def FS.agreeOn (S : List Str) (fs g : FS) : Prop :=
  ∀ p ∈ S, fs.files p = g.files p

/-- Number of output lines of a written file (every written line ends
with `'\n'`). -/
def lineCount (s : Str) : Nat := s.count '\n'

/-- The string contains no newline character. -/
def nlFree (s : Str) : Bool := s.count '\n' == 0

/-- Every string stored in the module's data is newline-free. -/
def modNlFree (md : fastqc_module) : Bool :=
  match md.data with
  | .series ps => ps.all (fun kv => nlFree kv.1 && nlFree kv.2)
  | .frame cols rows => cols.all nlFree && rows.all (fun r => r.all nlFree)

/-- Every string a collation run serializes out of the parse is
newline-free. -/
def qcNlFree (qc : fastqc_report) : Bool :=
  qc.modules.all (fun km => modNlFree km.2) && nlFree qc.filestub

/-- Data lines one parsed module contributes to its output file: one
line for the key-value `Basic Statistics` Series, one line per row for
a table module. -/
def contribMod (md : fastqc_module) : Nat :=
  match md.data with
  | .series _ => 1
  | .frame _ rows => rows.length

/-- Data lines the parse of one file contributes to module `m`'s output. -/
def contribution (qc : fastqc_report) (m : Str) : Nat :=
  match dictGet qc.modules m with
  | some md => contribMod md
  | none => 0

/-- Line count of a module's output file after streaming a list of
parses into it: starting from an absent file (`none`), the first parse
writes a header line plus its data lines, every later parse appends its
data lines. -/
def expectedCount (m : Str) : Option Nat → List fastqc_report → Option Nat
  | cur, [] => cur
  | cur, qc :: rest =>
    expectedCount m
      (some ((match cur with | none => 1 | some n => n) + contribution qc m)) rest

/-- The string `s` contains `pat` as a contiguous substring. -/
def containsSub (s pat : Str) : Prop := ∃ a b, s = a ++ pat ++ b

/-- The first character (if any) is not whitespace. -/
def noLeadWs (f : Str) : Bool :=
  match f with
  | [] => true
  | c :: _ => !c.isWhitespace

/-- The last character (if any) is not whitespace. -/
def noTrailWs (f : Str) : Bool := noLeadWs f.reverse

/-- A buffered data row carries no whitespace from the ends of its
source line: the first field has no leading whitespace and the last
field no trailing whitespace. -/
def rowEndTrimmed (row : List Str) : Bool :=
  noLeadWs (row.headD []) && noTrailWs (row.getLastD [])

/-- All data of a materialized module carries no whitespace from the
ends of its source lines.  For a table module every row satisfies
`rowEndTrimmed`.  For the key-value Series the stored pairs are the
column-0/column-1 projection (`npPairs`) of end-trimmed buffered rows;
keys are first fields, so they have no leading whitespace, and when the
rows are two-column — the format's shape for `Basic Statistics` — every
value is the last field of its line, so it has no trailing whitespace
either (stated as an explicit consequence). -/
def modEndTrimmed (md : fastqc_module) : Prop :=
  match md.data with
  | .frame _ rows => ∀ row ∈ rows, rowEndTrimmed row = true
  | .series ps =>
      ∃ rows : List (List Str), npPairs rows = some ps
        ∧ (∀ row ∈ rows, rowEndTrimmed row = true)
        ∧ (∀ kv ∈ ps, noLeadWs kv.1 = true)
        ∧ ((∀ row ∈ rows, row.length = 2) → ∀ kv ∈ ps, noTrailWs kv.2 = true)

/-- Invariant carried through the line scan: all buffered rows and all
stored modules are end-trimmed. -/
def parseInv (st : ParseState) : Prop :=
  (∀ row ∈ st.buf, rowEndTrimmed row = true)
  ∧ (∀ km ∈ st.mods, modEndTrimmed km.2)

/-- Table rows of a parsed module (empty for the key-value module). -/
def modRows (md : fastqc_module) : List (List Str) :=
  match md.data with
  | .frame _ rows => rows
  | .series _ => []

def mkContent (lines : List Str) : Str := (lines.map (fun l => l ++ nl)).flatten

def dummyReport : fastqc_report := ⟨[], [], 0, 0, 0, 0, [], []⟩

def dummyColl : fastqc_collation := ⟨[], [], [], [], [], []⟩

/-- A well-formed report: a `Basic Statistics` section with the five
summary fields and one two-row table module. -/
def exLines1 : List Str :=
  [ (">>Basic Statistics\tpass".toList)
  , ("#Measure\tValue".toList)
  , ("Filename\tsample1.fastq.gz".toList)
  , ("Total Sequences\t1000".toList)
  , ("Filtered Sequences\t0".toList)
  , ("Sequence length\t100".toList)
  , ("%GC\t45".toList)
  , (">>END_MODULE".toList)
  , (">>Tab Mod\twarn".toList)
  , ("#c1\tc2".toList)
  , ("r1a\tr1b".toList)
  , ("r2a\tr2b".toList)
  , (">>END_MODULE".toList) ]

def exWalk : List (Str × Str) := [(("r/A".toList), ("f".toList))]

def exFS : FS :=
  { dirs := fun _ => false
  , files := fun p => if p = ("r/A/f".toList) then some (mkContent exLines1) else none }

def exColl : fastqc_collation :=
  match fastqc_collation.init exWalk exFS ("r".toList) none ("f".toList) (",".toList) with
  | .ok c => c
  | .error _ => dummyColl

/-- A report with a stray non-marker line between `>>END_MODULE` and the
next `>>` module opener. -/
def c4Lines : List Str :=
  [ (">>Basic Statistics\tpass".toList)
  , ("#Measure\tValue".toList)
  , ("Filename\ts.fastq".toList)
  , ("Total Sequences\t1".toList)
  , ("Filtered Sequences\t0".toList)
  , ("Sequence length\t10".toList)
  , ("%GC\t50".toList)
  , (">>END_MODULE".toList)
  , ("stray\tx".toList)
  , (">>B\tok".toList)
  , ("#d1\td2".toList)
  , ("b1\tb2".toList)
  , (">>END_MODULE".toList) ]

def c4path : Str := "q/f".toList

def c4fs : FS :=
  { dirs := fun _ => false
  , files := fun p => if p = c4path then some (mkContent c4Lines) else none }

def c4report : fastqc_report :=
  match fastqc_report.init c4fs c4path with
  | .ok r => r
  | .error _ => dummyReport

/-- State `exFS` with a stale pre-existing output file for a module name that
is not in the discovered universe, and no output directory yet. -/
def c2fs : FS :=
  { dirs := fun _ => false
  , files := fun p =>
      if p = ("r/A/f".toList) then some (mkContent exLines1)
      else if p = outPath exColl ("Nope".toList) then some ("STALE".toList)
      else none }

def exWalk2 : List (Str × Str) :=
  [(("r/B".toList), ("f".toList)), (("r/A".toList), ("f".toList))]

def c8walkB : List (Str × Str) :=
  [(("r/A".toList), ("f".toList)), (("r/B".toList), ("f".toList))]

def exFS2 : FS :=
  { dirs := fun _ => false
  , files := fun p =>
      if p = ("r/A/f".toList) then some (mkContent exLines1)
      else if p = ("r/B/f".toList) then some (mkContent exLines1)
      else none }

def exColl2 : fastqc_collation :=
  match fastqc_collation.init exWalk2 exFS2 ("r".toList) none ("f".toList) (",".toList) with
  | .ok c => c
  | .error _ => dummyColl

def exQcs : List fastqc_report :=
  match parseAll exFS exColl.fastqcfiles with
  | .ok l => l
  | .error _ => []

def c2qc : fastqc_report :=
  match fastqc_report.init c2fs ("r/A/f".toList) with
  | .ok r => r
  | .error _ => dummyReport

theorem isPrefixOf_iff_eq_append {l₁ l₂ : Str} :
    l₁.isPrefixOf l₂ = true ↔ ∃ t, l₁ ++ t = l₂ := by
  induction l₁ generalizing l₂ with
  | nil => simp [List.isPrefixOf]
  | cons a as ih =>
    cases l₂ with
    | nil => simp [List.isPrefixOf]
    | cons b bs =>
      simp only [List.isPrefixOf, Bool.and_eq_true, beq_iff_eq, ih]
      constructor
      · rintro ⟨rfl, t, rfl⟩; exact ⟨t, rfl⟩
      · rintro ⟨t, h⟩
        injection h with h1 h2
        exact ⟨h1, t, h2⟩

/-- C3: a root under which no file matches the expected report filename
makes construction fail (the source hits `self.fastqcfiles[0]` on an
empty list, surfacing the spec's NotFound / "no reports found"
condition). -/
theorem C3_no_reports_found (walk : List (Str × Str)) (fs : FS)
    (project_root : Str) (out_dir : Option Str) (fastqc_filename sep : Str)
    (h : walk.filter (fun e => e.2 == fastqc_filename) = []) :
    fastqc_collation.init walk fs project_root out_dir fastqc_filename sep
      = .error .indexError := by
  unfold fastqc_collation.init discover
  rw [h]
  rfl

theorem C3_witness :
    ([(("r/A".toList), ("g".toList))] : List (Str × Str)).filter
        (fun e => e.2 == ("f".toList)) = []
    ∧ fastqc_collation.init [(("r/A".toList), ("g".toList))] exFS ("r".toList)
        none ("f".toList) (",".toList) = .error .indexError :=
  ⟨by decide, C3_no_reports_found _ exFS _ none _ _ (by decide)⟩

/-- C10: the `modules` argument of `process` may be `None` (process the
whole universe), a bare string (treated as the one-element list), or a
list of names. -/
theorem C10_modules_argument (c : fastqc_collation) (fs : FS) (s : Str) :
    c.process fs (.one s) = c.process fs (.many [s])
    ∧ c.process fs .all = c.process fs (.many c.modules) :=
  ⟨rfl, rfl⟩

/-- C8: the processed file list is exactly the matching walk entries as
full paths, sorted lexicographically, and does not depend on the order
in which the directory walk yields its entries. -/
theorem C8_discovery (walk walk' : List (Str × Str)) (fs : FS)
    (project_root : Str) (out_dir : Option Str) (fastqc_filename sep : Str)
    (c : fastqc_collation)
    (hinit : fastqc_collation.init walk fs project_root out_dir fastqc_filename sep = .ok c)
    (hperm : walk.Perm walk') :
    c.fastqcfiles = discover walk fastqc_filename
    ∧ c.fastqcfiles.Sorted (· ≤ ·)
    ∧ c.fastqcfiles.Perm
        ((walk.filter (fun e => e.2 == fastqc_filename)).map
          (fun e => pyJoin e.1 fastqc_filename))
    ∧ discover walk' fastqc_filename = discover walk fastqc_filename := by
  have hsort : ∀ (w : List (Str × Str)), (discover w fastqc_filename).Sorted (· ≤ ·) :=
    fun w => List.sorted_insertionSort _ _
  have hfq : c.fastqcfiles = discover walk fastqc_filename := by
    simp only [fastqc_collation.init] at hinit
    split at hinit
    · exact absurd hinit (by simp)
    · rename_i f0 rest hd
      cases hr : fastqc_report.init fs (f0) with
      | error e =>
        rw [hr] at hinit
        exact absurd hinit (by simp [Bind.bind, Except.bind])
      | ok r =>
        rw [hr] at hinit
        simp only [Bind.bind, Except.bind] at hinit
        cases hinit
        rfl
  have hpm : c.fastqcfiles.Perm
      ((walk.filter (fun e => e.2 == fastqc_filename)).map
        (fun e => pyJoin e.1 fastqc_filename)) := by
    rw [hfq]
    exact List.perm_insertionSort _ _
  have hp : (discover walk' fastqc_filename).Perm (discover walk fastqc_filename) := by
    refine (List.perm_insertionSort _ _).trans
      (List.Perm.trans ?_ (List.perm_insertionSort _ _).symm)
    exact (hperm.symm.filter _).map _
  exact ⟨hfq, hfq ▸ hsort walk, hpm,
    List.eq_of_perm_of_sorted hp (hsort walk') (hsort walk)⟩

set_option maxRecDepth 1000000 in
theorem C8_witness :
    exColl2.fastqcfiles = discover exWalk2 ("f".toList)
    ∧ exColl2.fastqcfiles.Sorted (· ≤ ·)
    ∧ exColl2.fastqcfiles.Perm
        ((exWalk2.filter (fun e => e.2 == ("f".toList))).map
          (fun e => pyJoin e.1 ("f".toList)))
    ∧ discover c8walkB ("f".toList) = discover exWalk2 ("f".toList) :=
  C8_discovery exWalk2 c8walkB exFS2 ("r".toList) none ("f".toList) (",".toList)
    exColl2 (by decide) (by decide)

theorem fastqc_report.init_ok_inv {fs : FS} {p : Str} {r : fastqc_report}
    (h : fastqc_report.init fs p = .ok r) :
    ∃ content st, fs.files p = some content
      ∧ runLines initialParseState (pyReadLines content) = .ok st
      ∧ r.modules = st.mods
      ∧ r.fastqcpath = p
      ∧ r.filestub = reSubFastqStub r.filename := by
  unfold fastqc_report.init at h
  split at h
  · exact absurd h (by simp)
  · rename_i content hc
    cases hst : runLines initialParseState (pyReadLines content) with
    | error e => rw [hst] at h; exact absurd h (by simp [Bind.bind, Except.bind])
    | ok st =>
      rw [hst] at h
      simp only [Bind.bind, Except.bind] at h
      split at h
      case _ md hbs =>
        cases h1 : seriesGet (seriesPairs md) ("Total Sequences".toList) with
        | error e => rw [h1] at h; exact absurd h (by simp)
        | ok v1 =>
          rw [h1] at h
          simp only [Except.bind] at h
          cases h1b : pyIntE v1 with
          | error e => rw [h1b] at h; exact absurd h (by simp)
          | ok n1 =>
            rw [h1b] at h
            simp only [Except.bind] at h
            cases h2 : seriesGet (seriesPairs md) ("Filtered Sequences".toList) with
            | error e => rw [h2] at h; exact absurd h (by simp)
            | ok v2 =>
              rw [h2] at h
              simp only [Except.bind] at h
              cases h2b : pyIntE v2 with
              | error e => rw [h2b] at h; exact absurd h (by simp)
              | ok n2 =>
                rw [h2b] at h
                simp only [Except.bind] at h
                cases h3 : seriesGet (seriesPairs md) ("Sequence length".toList) with
                | error e => rw [h3] at h; exact absurd h (by simp)
                | ok v3 =>
                  rw [h3] at h
                  simp only [Except.bind] at h
                  cases h3b : pyIntE v3 with
                  | error e => rw [h3b] at h; exact absurd h (by simp)
                  | ok n3 =>
                    rw [h3b] at h
                    simp only [Except.bind] at h
                    cases h4 : seriesGet (seriesPairs md) ("%GC".toList) with
                    | error e => rw [h4] at h; exact absurd h (by simp)
                    | ok v4 =>
                      rw [h4] at h
                      simp only [Except.bind] at h
                      cases h4b : pyIntE v4 with
                      | error e => rw [h4b] at h; exact absurd h (by simp)
                      | ok n4 =>
                        rw [h4b] at h
                        simp only [Except.bind] at h
                        cases h5 : seriesGet (seriesPairs md) ("Filename".toList) with
                        | error e => rw [h5] at h; exact absurd h (by simp)
                        | ok v5 =>
                          rw [h5] at h
                          simp only [Except.bind] at h
                          cases h
                          exact ⟨content, st, hc, hst, rfl, rfl, rfl⟩
      case _ hbs => exact absurd h (by simp)

theorem getLast?_some_mem {α : Type} {l : List α} {a : α} (h : l.getLast? = some a) :
    a ∈ l := by
  obtain ⟨hne, heq⟩ := List.mem_getLast?_eq_getLast (Option.mem_def.mpr h)
  rw [heq]
  exact List.getLast_mem hne

theorem occAt_decomp {s pat : Str} {i : Nat} (h : occAt s pat i = true) :
    s = s.take i ++ pat ++ s.drop (i + pat.length) := by
  unfold occAt at h
  obtain ⟨t, ht⟩ := isPrefixOf_iff_eq_append.mp h
  have hdrop : s.drop i = pat ++ t := ht.symm
  have ht' : s.drop (i + pat.length) = t := by
    rw [← List.drop_drop, hdrop, List.drop_left]
  rw [ht', List.append_assoc, ← hdrop, List.take_append_drop]

theorem occAt_of_decomp {a b pat : Str} : occAt (a ++ pat ++ b) pat a.length = true := by
  unfold occAt
  rw [List.append_assoc, List.drop_left]
  exact isPrefixOf_iff_eq_append.mpr ⟨b, rfl⟩

theorem occAt_lt_length {s pat : Str} {i : Nat} (hpat : pat ≠ []) (h : occAt s pat i = true) :
    i < s.length := by
  by_contra hge
  push_neg at hge
  unfold occAt at h
  rw [List.drop_eq_nil_of_le hge] at h
  obtain ⟨t, ht⟩ := isPrefixOf_iff_eq_append.mp h
  exact hpat (List.append_eq_nil.mp ht).1

theorem mem_occIdxs_iff {s pat : Str} (hpat : pat ≠ []) {j : Nat} :
    j ∈ occIdxs s pat ↔ occAt s pat j = true := by
  unfold occIdxs
  rw [List.mem_filter, List.mem_range]
  exact ⟨fun h => h.2, fun h => ⟨occAt_lt_length hpat h, h⟩⟩

theorem getLast?_max_of_pairwise_lt {l : List Nat} (hp : l.Pairwise (· < ·)) {x y : Nat}
    (hx : x ∈ l) (hy : l.getLast? = some y) : x ≤ y := by
  induction l with
  | nil => cases hx
  | cons a t ih =>
    cases t with
    | nil =>
      simp only [List.getLast?_singleton, Option.some.injEq] at hy
      simp only [List.mem_singleton] at hx
      omega
    | cons b t' =>
      rw [List.getLast?_cons_cons] at hy
      rcases List.mem_cons.mp hx with rfl | hx'
      · have hym : y ∈ b :: t' := getLast?_some_mem hy
        exact le_of_lt (List.rel_of_pairwise_cons hp hym)
      · exact ih hp.of_cons hx' hy

theorem occIdxs_pairwise (s pat : Str) : (occIdxs s pat).Pairwise (· < ·) :=
  List.Pairwise.sublist (List.filter_sublist _) (List.pairwise_lt_range _)

theorem containsSub_iff_exists_occ {s pat : Str} :
    containsSub s pat ↔ ∃ i, occAt s pat i = true := by
  constructor
  · rintro ⟨a, b, rfl⟩
    exact ⟨a.length, occAt_of_decomp⟩
  · rintro ⟨i, hi⟩
    exact ⟨s.take i, s.drop (i + pat.length), occAt_decomp hi⟩

/-- C5: the sample stub of every successfully parsed report equals the
declared filename with the trailing `.fastq` (the last occurrence) and
everything after it removed; with no `.fastq` in the filename the stub
is the filename unchanged. -/
theorem C5_filestub (fs : FS) (p : Str) (r : fastqc_report)
    (h : fastqc_report.init fs p = .ok r) :
    (¬ containsSub r.filename fastqSuffix → r.filestub = r.filename)
    ∧ (containsSub r.filename fastqSuffix →
        ∃ rest, r.filename = r.filestub ++ fastqSuffix ++ rest
          ∧ ∀ a b, r.filename = a ++ fastqSuffix ++ b →
              a.length ≤ r.filestub.length) := by
  obtain ⟨content, st, -, -, -, -, hstub⟩ := fastqc_report.init_ok_inv h
  rw [hstub]
  constructor
  · intro hnc
    unfold reSubFastqStub
    cases hl : (occIdxs r.filename fastqSuffix).getLast? with
    | none => rfl
    | some i =>
      exfalso
      have hi : i ∈ occIdxs r.filename fastqSuffix := getLast?_some_mem hl
      exact hnc (containsSub_iff_exists_occ.mpr
        ⟨i, (mem_occIdxs_iff (by decide)).mp hi⟩)
  · intro hc
    obtain ⟨i0, hi0⟩ := containsSub_iff_exists_occ.mp hc
    have hmem : i0 ∈ occIdxs r.filename fastqSuffix :=
      (mem_occIdxs_iff (by decide)).mpr hi0
    cases hl : (occIdxs r.filename fastqSuffix).getLast? with
    | none =>
      rw [List.getLast?_eq_none_iff] at hl
      rw [hl] at hmem
      cases hmem
    | some i =>
      have hiocc : occAt r.filename fastqSuffix i = true :=
        (mem_occIdxs_iff (by decide)).mp (getLast?_some_mem hl)
      have hilt : i < r.filename.length := occAt_lt_length (by decide) hiocc
      unfold reSubFastqStub
      rw [hl]
      refine ⟨r.filename.drop (i + fastqSuffix.length), occAt_decomp hiocc, ?_⟩
      intro a b hab
      have hamem : a.length ∈ occIdxs r.filename fastqSuffix :=
        (mem_occIdxs_iff (by decide)).mpr (by rw [hab]; exact occAt_of_decomp)
      have hle : a.length ≤ i :=
        getLast?_max_of_pairwise_lt (occIdxs_pairwise _ _) hamem hl
      rw [List.length_take, Nat.min_eq_left (le_of_lt hilt)]
      exact hle

set_option maxRecDepth 1000000 in
theorem C5_witness :
    fastqc_report.init c4fs c4path = .ok c4report
    ∧ ((¬ containsSub c4report.filename fastqSuffix →
          c4report.filestub = c4report.filename)
      ∧ (containsSub c4report.filename fastqSuffix →
          ∃ rest, c4report.filename = c4report.filestub ++ fastqSuffix ++ rest
            ∧ ∀ a b, c4report.filename = a ++ fastqSuffix ++ b →
                a.length ≤ c4report.filestub.length)) :=
  ⟨by decide, C5_filestub c4fs c4path c4report (by decide)⟩

set_option maxRecDepth 1000000 in
/-- C4 counterexample: in this report a stray non-marker line sits
between `>>END_MODULE` and the next `>>` opener; the parse succeeds and
the stray line shows up as the first data row of the next module `B`,
so it does contribute a data row to the resulting ModuleSet. -/
theorem C4_counterexample :
    fastqc_report.init c4fs c4path = .ok c4report
    ∧ (dictGet c4report.modules ("B".toList)).map modRows
        = some [[("stray".toList), ("x".toList)], [("b1".toList), ("b2".toList)]] := by
  constructor
  · decide
  · decide

/-- C4 (amended): the source keeps no inside/outside-module state, so a
line that matches none of the three markers is buffered as a data row
unconditionally — in particular also between `>>END_MODULE` and the
next `>>` opener, in which case it is carried into the next module that
closes. -/
theorem C4_buffered_unconditionally (st : ParseState) (raw : Str)
    (h1 : isOpenMarker (pyStrip raw) = false)
    (h2 : isHashMarker (pyStrip raw) = false)
    (h3 : isEndMarker (pyStrip raw) = false) :
    pstep st raw = .ok { st with buf := st.buf ++ [splitTab (pyStrip raw)] } := by
  simp only [pstep, h1, h2, h3, Bool.false_eq_true, if_false]

theorem C4_buffered_unconditionally_witness :
    pstep initialParseState ("stray\tx".toList)
      = .ok { initialParseState with
              buf := initialParseState.buf ++ [splitTab (pyStrip ("stray\tx".toList))] } :=
  C4_buffered_unconditionally initialParseState ("stray\tx".toList)
    (by decide) (by decide) (by decide)

theorem noLeadWs_dropWhile (l : Str) :
    noLeadWs (l.dropWhile Char.isWhitespace) = true := by
  induction l with
  | nil => rfl
  | cons c t ih =>
    rw [List.dropWhile_cons]
    split
    · exact ih
    · next hc => simp [noLeadWs, hc]

theorem pyStrip_noTrailWs (s : Str) : noTrailWs (pyStrip s) = true := by
  unfold pyStrip noTrailWs
  rw [List.reverse_reverse]
  exact noLeadWs_dropWhile _

theorem pyStrip_noLeadWs (s : Str) : noLeadWs (pyStrip s) = true := by
  unfold pyStrip
  generalize ht : s.dropWhile Char.isWhitespace = t
  have hlead : noLeadWs t = true := ht ▸ noLeadWs_dropWhile s
  have hpre : (List.dropWhile Char.isWhitespace t.reverse).reverse <+: t := by
    have h := List.reverse_prefix.mpr
      (List.dropWhile_suffix (l := t.reverse) Char.isWhitespace)
    rwa [List.reverse_reverse] at h
  obtain ⟨u, hu⟩ := hpre
  cases hd : (List.dropWhile Char.isWhitespace t.reverse).reverse with
  | nil => rfl
  | cons c cs =>
    rw [hd] at hu
    cases t with
    | nil => simp at hu
    | cons a t' =>
      rw [List.cons_append] at hu
      injection hu with h1 h2
      subst h1
      simpa [noLeadWs] using hlead

theorem splitChar_ne_nil (sep : Char) (s : Str) : splitChar sep s ≠ [] := by
  induction s with
  | nil => simp [splitChar]
  | cons c rest ih =>
    unfold splitChar
    cases h : splitChar sep rest with
    | nil => exact absurd h ih
    | cons f fs =>
      dsimp only
      split <;> simp

theorem splitChar_ne_single_nil (sep : Char) {s : Str} (hs : s ≠ []) :
    splitChar sep s ≠ [[]] := by
  cases s with
  | nil => exact absurd rfl hs
  | cons c rest =>
    unfold splitChar
    cases h : splitChar sep rest with
    | nil => exact absurd h (splitChar_ne_nil _ _)
    | cons f fs =>
      dsimp only
      split <;> simp

theorem splitTab_head_noLeadWs {t : Str} (h : noLeadWs t = true) :
    noLeadWs ((splitTab t).headD []) = true := by
  cases t with
  | nil => rfl
  | cons c rest =>
    have hc : ¬ c.isWhitespace := by simpa [noLeadWs] using h
    have htab : ¬ c = '\t' := fun hcc => hc (by rw [hcc]; decide)
    unfold splitTab splitChar
    cases hs : splitChar '\t' rest with
    | nil => exact absurd hs (splitChar_ne_nil _ _)
    | cons f fs => simp [htab, noLeadWs, hc]

theorem noTrailWs_cons {c : Char} {rest : Str} (hr : rest ≠ []) :
    noTrailWs (c :: rest) = noTrailWs rest := by
  unfold noTrailWs
  rw [List.reverse_cons]
  cases hrv : rest.reverse with
  | nil => exact absurd (by simpa using hrv) hr
  | cons a t => simp [noLeadWs]

theorem splitTab_last_noTrailWs : ∀ {t : Str}, noTrailWs t = true →
    noTrailWs ((splitTab t).getLastD []) = true
  | [], _ => rfl
  | [c], h => by
    have hc : ¬ c.isWhitespace := by simpa [noTrailWs, noLeadWs] using h
    have htab : ¬ c = '\t' := fun hcc => hc (by rw [hcc]; decide)
    simp [splitTab, splitChar, htab, noTrailWs, noLeadWs, hc]
  | c :: r0 :: rest', h => by
    have hrne : (r0 :: rest' : Str) ≠ [] := List.cons_ne_nil _ _
    have ht : noTrailWs (r0 :: rest') = true := by
      rwa [noTrailWs_cons hrne] at h
    have ih := splitTab_last_noTrailWs ht
    unfold splitTab splitChar
    cases hs : splitChar '\t' (r0 :: rest') with
    | nil => exact absurd hs (splitChar_ne_nil _ _)
    | cons f fs =>
      unfold splitTab at ih
      rw [hs] at ih
      dsimp only
      split
      · simpa [List.getLastD_cons] using ih
      · cases fs with
        | cons g gs => simpa [List.getLastD_cons] using ih
        | nil =>
          simp only [List.getLastD_cons, List.getLastD_nil] at ih ⊢
          cases hf : f with
          | cons x xs =>
            rw [hf] at ih
            rwa [noTrailWs_cons (List.cons_ne_nil _ _)]
          | nil =>
            rw [hf] at hs
            exact absurd hs (splitChar_ne_single_nil _ hrne)

theorem dictUpsert_mem {α : Type} {l : List (Str × α)} {k : Str} {v : α} {kv : Str × α}
    (h : kv ∈ dictUpsert l k v) : kv ∈ l ∨ kv = (k, v) := by
  induction l with
  | nil =>
    simp only [dictUpsert, List.mem_singleton] at h
    exact Or.inr h
  | cons p rest ih =>
    cases p with
    | mk k' v' =>
      unfold dictUpsert at h
      split at h
      · rcases List.mem_cons.mp h with rfl | hm
        · exact Or.inr rfl
        · exact Or.inl (List.mem_cons_of_mem _ hm)
      · rcases List.mem_cons.mp h with rfl | hm
        · exact Or.inl (List.mem_cons_self _ _)
        · rcases ih hm with h' | h'
          · exact Or.inl (List.mem_cons_of_mem _ h')
          · exact Or.inr h'

theorem make_endTrimmed {m s : Str} {cs : List Str} {buf : List (List Str)}
    {md : fastqc_module} (hmk : fastqc_module.make m s cs buf = .ok md)
    (hbuf : ∀ row ∈ buf, rowEndTrimmed row = true) :
    modEndTrimmed md := by
  unfold fastqc_module.make at hmk
  split at hmk
  · -- Basic Statistics: Series
    cases hnp : npPairs buf with
    | none => rw [hnp] at hmk; exact absurd hmk (by simp)
    | some pairs =>
      rw [hnp] at hmk
      cases hmk
      -- the stored pairs are the column-0/column-1 projection of `buf`
      have hmap : pairs = buf.map (fun r => (r.headD [], (r.drop 1).headD [])) := by
        have hnp' := hnp
        unfold npPairs at hnp'
        split at hnp'
        · exact absurd hnp' (by simp)
        · split at hnp'
          · cases hnp'
            rfl
          · exact absurd hnp' (by simp)
      refine ⟨buf, hnp, hbuf, ?_, ?_⟩
      · -- keys are first fields of end-trimmed rows
        intro kv hkv
        rw [hmap] at hkv
        obtain ⟨r, hr, hkv'⟩ := List.mem_map.mp hkv
        have hre := hbuf r hr
        unfold rowEndTrimmed at hre
        rw [Bool.and_eq_true] at hre
        rw [← hkv']
        exact hre.1
      · -- two-column rows: values are last fields of end-trimmed rows
        intro hlen kv hkv
        rw [hmap] at hkv
        obtain ⟨r, hr, hkv'⟩ := List.mem_map.mp hkv
        obtain ⟨a, b, rfl⟩ := List.length_eq_two.mp (hlen r hr)
        have hre := hbuf [a, b] hr
        unfold rowEndTrimmed at hre
        rw [Bool.and_eq_true] at hre
        rw [← hkv']
        exact hre.2
  · -- table module
    cases hmk
    exact hbuf

theorem pstep_preserves_inv {st st' : ParseState} {raw : Str}
    (h : pstep st raw = .ok st') (hinv : parseInv st) : parseInv st' := by
  simp only [pstep] at h
  by_cases h1 : isOpenMarker (pyStrip raw) = true
  · rw [if_pos h1] at h
    split at h
    · cases h
      exact ⟨hinv.1, hinv.2⟩
    · exact absurd h (by simp)
  · rw [if_neg h1] at h
    by_cases h2 : isHashMarker (pyStrip raw) = true
    · rw [if_pos h2] at h
      cases h
      exact ⟨hinv.1, hinv.2⟩
    · rw [if_neg h2] at h
      by_cases h3 : isEndMarker (pyStrip raw) = true
      · rw [if_pos h3] at h
        split at h
        · rename_i m s cs hms hcs
          cases hmk : fastqc_module.make m s cs st.buf with
          | error e => rw [hmk] at h; exact absurd h (by simp)
          | ok md =>
            rw [hmk] at h
            cases h
            refine ⟨by simp, ?_⟩
            intro km hkm
            rcases dictUpsert_mem hkm with hold | rfl
            · exact hinv.2 km hold
            · exact make_endTrimmed hmk hinv.1
        · exact absurd h (by simp)
      · rw [if_neg h3] at h
        cases h
        refine ⟨?_, hinv.2⟩
        intro row hrow
        rcases List.mem_append.mp hrow with hold | hnew
        · exact hinv.1 row hold
        · rw [List.mem_singleton.mp hnew]
          unfold rowEndTrimmed
          rw [Bool.and_eq_true]
          exact ⟨splitTab_head_noLeadWs (pyStrip_noLeadWs raw),
                 splitTab_last_noTrailWs (pyStrip_noTrailWs raw)⟩

theorem runLines_preserves_inv :
    ∀ (lines : List Str) {st st' : ParseState},
      runLines st lines = .ok st' → parseInv st → parseInv st'
  | [], st, st', h, hinv => by
    cases h
    exact hinv
  | l :: rest, st, st', h, hinv => by
    unfold runLines at h
    cases hp : pstep st l with
    | error e => rw [hp] at h; exact absurd h (by simp)
    | ok st1 =>
      rw [hp] at h
      exact runLines_preserves_inv rest h (pstep_preserves_inv hp hinv)

/-- C9: the parser strips each line before classifying it, so in every
successfully parsed report no field value of any module retains
whitespace from its line's ends: every table row has no leading
whitespace on its first field and no trailing whitespace on its last,
and the key-value Series is the column projection of such end-trimmed
rows — its keys (first fields) carry no leading whitespace and, for
two-column rows (the `Basic Statistics` shape), its values (last
fields) carry no trailing whitespace; and a whitespace-only line in
data-row position is buffered as the single-field row containing the
empty string. -/
theorem C9_strip_classification (fs : FS) (p : Str) (r : fastqc_report)
    (st : ParseState) (raw : Str)
    (h : fastqc_report.init fs p = .ok r) :
    (∀ km ∈ r.modules, modEndTrimmed km.2)
    ∧ (raw.all Char.isWhitespace = true →
        pstep st raw = .ok { st with buf := st.buf ++ [[[]]] }) := by
  constructor
  · obtain ⟨content, st0, -, hrl, hmods, -, -⟩ := fastqc_report.init_ok_inv h
    rw [hmods]
    have hinv0 : parseInv initialParseState :=
      ⟨fun row hrow => (by cases hrow), fun km hkm => (by cases hkm)⟩
    exact (runLines_preserves_inv _ hrl hinv0).2
  · intro hws
    have hstrip : pyStrip raw = [] := by
      unfold pyStrip
      rw [List.dropWhile_eq_nil_iff.mpr (fun x hx => (List.all_eq_true.mp hws) x hx)]
      rfl
    simp only [pstep, hstrip]
    rfl

set_option maxRecDepth 1000000 in
theorem C9_witness :
    ((∀ km ∈ c4report.modules, modEndTrimmed km.2)
      ∧ ((" \t ".toList).all Char.isWhitespace = true →
          pstep initialParseState (" \t ".toList)
            = .ok { initialParseState with
                    buf := initialParseState.buf ++ [[[]]] }))
    ∧ (" \t ".toList).all Char.isWhitespace = true :=
  ⟨C9_strip_classification c4fs c4path c4report initialParseState (" \t ".toList)
      (by decide),
   by decide⟩

theorem removeOld_cons (c : fastqc_collation) (fs : FS) (m : Str) (rest : List Str) :
    removeOld c fs (m :: rest)
      = removeOld c
          (if fs.isfile (outPath c m) then fs.remove (outPath c m) else fs) rest := rfl

theorem removeOld_files (c : fastqc_collation) :
    ∀ (modules : List Str) (fs : FS) (p : Str),
      (removeOld c fs modules).files p =
        if p ∈ modules.map (outPath c) then none else fs.files p
  | [], fs, p => by simp [removeOld]
  | m :: rest, fs, p => by
    rw [removeOld_cons, removeOld_files c rest _ p]
    by_cases hp : p ∈ rest.map (outPath c)
    · simp [hp]
    · by_cases hpm : p = outPath c m
      · subst hpm
        rw [if_neg hp, List.map_cons, if_pos (List.mem_cons_self _ _)]
        by_cases hf : fs.isfile (outPath c m) = true
        · simp [hf, FS.remove]
        · rw [if_neg hf]
          exact Option.not_isSome_iff_eq_none.mp hf
      · have : ¬ p ∈ (m :: rest).map (outPath c) := by
          simp only [List.map_cons, List.mem_cons]
          rintro (h | h)
          · exact hpm h
          · exact hp h
        simp only [hp, if_false, this]
        split <;> simp [FS.remove, hpm]

theorem removeOld_dirs (c : fastqc_collation) :
    ∀ (modules : List Str) (fs : FS), (removeOld c fs modules).dirs = fs.dirs
  | [], _ => rfl
  | m :: rest, fs => by
    rw [removeOld_cons, removeOld_dirs c rest]
    split <;> rfl

theorem _process_mod_files_other (c : fastqc_collation) (fs : FS) (filepath : Str)
    (qc : fastqc_report) (module out : Str) (append : Bool) {p : Str} (hp : p ≠ out) :
    ((_process_mod c fs filepath qc module out append).2).files p = fs.files p := by
  unfold _process_mod
  split
  · split
    · rfl
    · split <;> split <;> simp [FS.append, FS.write, hp]
  · rfl

theorem _process_mod_dirs (c : fastqc_collation) (fs : FS) (filepath : Str)
    (qc : fastqc_report) (module out : Str) (append : Bool) :
    ((_process_mod c fs filepath qc module out append).2).dirs = fs.dirs := by
  unfold _process_mod
  split
  · split
    · rfl
    · split <;> split <;> simp [FS.append, FS.write]
  · rfl

theorem _process_mod_ext (c : fastqc_collation) {fs g : FS} (filepath : Str)
    (qc : fastqc_report) (module out : Str) (append : Bool)
    (h : fs.files out = g.files out) :
    (_process_mod c fs filepath qc module out append).1
      = (_process_mod c g filepath qc module out append).1
    ∧ ((_process_mod c fs filepath qc module out append).2).files out
      = ((_process_mod c g filepath qc module out append).2).files out := by
  unfold _process_mod
  split
  · split
    · exact ⟨rfl, h⟩
    · split <;> split <;> exact ⟨rfl, by simp [FS.append, FS.write, h]⟩
  · exact ⟨rfl, h⟩

theorem processMods_cons (c : fastqc_collation) (filepath : Str) (qc : fastqc_report)
    (fs : FS) (m : Str) (rest : List Str) :
    processMods c filepath qc fs (m :: rest)
      = match _process_mod c fs filepath qc m (outPath c m) (fs.isfile (outPath c m)) with
        | (.ok _, fs') => processMods c filepath qc fs' rest
        | r => r := rfl

theorem processMods_files_other (c : fastqc_collation) (filepath : Str) (qc : fastqc_report) :
    ∀ (modules : List Str) (fs : FS) {p : Str},
      p ∉ modules.map (outPath c) →
      ((processMods c filepath qc fs modules).2).files p = fs.files p
  | [], fs, p, _ => rfl
  | m :: rest, fs, p, hp => by
    have hpm : p ≠ outPath c m := by
      intro he
      exact hp (by rw [List.map_cons, he]; exact List.mem_cons_self _ _)
    have hprest : p ∉ rest.map (outPath c) := by
      intro hm
      exact hp (by rw [List.map_cons]; exact List.mem_cons_of_mem _ hm)
    rw [processMods_cons]
    cases hstep : _process_mod c fs filepath qc m (outPath c m) (fs.isfile (outPath c m)) with
    | mk res fs' =>
      have hother : fs'.files p = fs.files p := by
        have h0 := _process_mod_files_other c fs filepath qc m (outPath c m)
          (fs.isfile (outPath c m)) hpm
        rw [hstep] at h0
        exact h0
      cases res with
      | ok u =>
        dsimp only
        rw [processMods_files_other c filepath qc rest fs' hprest]
        exact hother
      | error e =>
        dsimp only
        exact hother

theorem processMods_dirs (c : fastqc_collation) (filepath : Str) (qc : fastqc_report) :
    ∀ (modules : List Str) (fs : FS),
      ((processMods c filepath qc fs modules).2).dirs = fs.dirs
  | [], fs => rfl
  | m :: rest, fs => by
    rw [processMods_cons]
    cases hstep : _process_mod c fs filepath qc m (outPath c m) (fs.isfile (outPath c m)) with
    | mk res fs' =>
      have hd : fs'.dirs = fs.dirs := by
        have h0 := _process_mod_dirs c fs filepath qc m (outPath c m) (fs.isfile (outPath c m))
        rw [hstep] at h0
        exact h0
      cases res with
      | ok u =>
        dsimp only
        rw [processMods_dirs c filepath qc rest fs']
        exact hd
      | error e =>
        dsimp only
        exact hd

theorem processMods_ext (c : fastqc_collation) (filepath : Str) (qc : fastqc_report)
    (S : List Str) :
    ∀ (modules : List Str) (fs g : FS),
      (∀ m ∈ modules, outPath c m ∈ S) → FS.agreeOn S fs g →
      (processMods c filepath qc fs modules).1 = (processMods c filepath qc g modules).1
      ∧ FS.agreeOn S (processMods c filepath qc fs modules).2
          (processMods c filepath qc g modules).2
  | [], fs, g, _, hag => ⟨rfl, hag⟩
  | m :: rest, fs, g, hmods, hag => by
    have hout : fs.files (outPath c m) = g.files (outPath c m) :=
      hag _ (hmods m (List.mem_cons_self _ _))
    have hisf : fs.isfile (outPath c m) = g.isfile (outPath c m) := by
      unfold FS.isfile
      rw [hout]
    have hext := _process_mod_ext c filepath qc m (outPath c m)
      (fs.isfile (outPath c m)) hout
    rw [processMods_cons, processMods_cons, ← hisf]
    cases hstepf : _process_mod c fs filepath qc m (outPath c m) (fs.isfile (outPath c m)) with
    | mk resf fsf =>
      cases hstepg : _process_mod c g filepath qc m (outPath c m) (fs.isfile (outPath c m)) with
      | mk resg fsg =>
        rw [hstepf, hstepg] at hext
        have hres : resf = resg := hext.1
        have hagree2 : FS.agreeOn S fsf fsg := by
          intro q hq
          by_cases hqo : q = outPath c m
          · subst hqo
            exact hext.2
          · have hf := _process_mod_files_other c fs filepath qc m (outPath c m)
              (fs.isfile (outPath c m)) hqo
            have hgg := _process_mod_files_other c g filepath qc m (outPath c m)
              (fs.isfile (outPath c m)) hqo
            rw [hstepf] at hf
            rw [hstepg] at hgg
            rw [hf, hgg]
            exact hag q hq
        subst hres
        cases resf with
        | ok u =>
          dsimp only
          exact processMods_ext c filepath qc S rest fsf fsg
            (fun m' hm' => hmods m' (List.mem_cons_of_mem _ hm')) hagree2
        | error e =>
          dsimp only
          exact ⟨rfl, hagree2⟩

theorem fastqc_report.init_ext {fs g : FS} (p : Str) (h : fs.files p = g.files p) :
    fastqc_report.init fs p = fastqc_report.init g p := by
  unfold fastqc_report.init
  rw [h]

theorem processFiles_cons (c : fastqc_collation) (modules : List Str) (fs : FS)
    (f : Str) (rest : List Str) :
    processFiles c modules fs (f :: rest)
      = match fastqc_report.init fs f with
        | .error e => (.error e, fs)
        | .ok qc =>
          match processMods c f qc fs modules with
          | (.ok _, fs') => processFiles c modules fs' rest
          | r => r := rfl

theorem processFiles_files_other (c : fastqc_collation) (modules : List Str) :
    ∀ (files : List Str) (fs : FS) {p : Str},
      p ∉ modules.map (outPath c) →
      ((processFiles c modules fs files).2).files p = fs.files p
  | [], fs, p, _ => rfl
  | f :: rest, fs, p, hp => by
    rw [processFiles_cons]
    cases hqc : fastqc_report.init fs f with
    | error e => rfl
    | ok qc =>
      dsimp only
      cases hstep : processMods c f qc fs modules with
      | mk res fs' =>
        have hother : fs'.files p = fs.files p := by
          have h0 := processMods_files_other c f qc modules fs hp
          rw [hstep] at h0
          exact h0
        cases res with
        | ok u =>
          dsimp only
          rw [processFiles_files_other c modules rest fs' hp]
          exact hother
        | error e =>
          dsimp only
          exact hother

theorem processFiles_dirs (c : fastqc_collation) (modules : List Str) :
    ∀ (files : List Str) (fs : FS),
      ((processFiles c modules fs files).2).dirs = fs.dirs
  | [], fs => rfl
  | f :: rest, fs => by
    rw [processFiles_cons]
    cases hqc : fastqc_report.init fs f with
    | error e => rfl
    | ok qc =>
      dsimp only
      cases hstep : processMods c f qc fs modules with
      | mk res fs' =>
        have hd : fs'.dirs = fs.dirs := by
          have h0 := processMods_dirs c f qc modules fs
          rw [hstep] at h0
          exact h0
        cases res with
        | ok u =>
          dsimp only
          rw [processFiles_dirs c modules rest fs']
          exact hd
        | error e =>
          dsimp only
          exact hd

theorem processFiles_ext (c : fastqc_collation) (modules : List Str) (S : List Str)
    (hmods : ∀ m ∈ modules, outPath c m ∈ S) :
    ∀ (files : List Str) (fs g : FS),
      (∀ f ∈ files, f ∈ S) → FS.agreeOn S fs g →
      (processFiles c modules fs files).1 = (processFiles c modules g files).1
      ∧ FS.agreeOn S (processFiles c modules fs files).2 (processFiles c modules g files).2
  | [], fs, g, _, hag => ⟨rfl, hag⟩
  | f :: rest, fs, g, hfiles, hag => by
    have hqceq : fastqc_report.init fs f = fastqc_report.init g f :=
      fastqc_report.init_ext f (hag f (hfiles f (List.mem_cons_self _ _)))
    rw [processFiles_cons, processFiles_cons, ← hqceq]
    cases hqc : fastqc_report.init fs f with
    | error e => exact ⟨rfl, hag⟩
    | ok qc =>
      dsimp only
      have hmext := processMods_ext c f qc S modules fs g hmods hag
      cases hstepf : processMods c f qc fs modules with
      | mk resf fsf =>
        cases hstepg : processMods c f qc g modules with
        | mk resg fsg =>
          rw [hstepf, hstepg] at hmext
          have hres : resf = resg := hmext.1
          subst hres
          cases resf with
          | ok u =>
            dsimp only
            exact processFiles_ext c modules S hmods rest fsf fsg
              (fun f' hf' => hfiles f' (List.mem_cons_of_mem _ hf')) hmext.2
          | error e =>
            dsimp only
            exact ⟨rfl, hmext.2⟩

theorem process_unfold (c : fastqc_collation) (fs : FS) (arg : ModulesArg) :
    c.process fs arg
      = processFiles c (modulesOf c arg)
          (removeOld c (fs.makedirs c.out_dir) (modulesOf c arg)) c.fastqcfiles := rfl

theorem process_files_other (c : fastqc_collation) (fs : FS) (arg : ModulesArg) {p : Str}
    (hp : p ∉ (modulesOf c arg).map (outPath c)) :
    ((c.process fs arg).2).files p = fs.files p := by
  rw [process_unfold]
  rw [processFiles_files_other c _ _ _ hp, removeOld_files]
  rw [if_neg hp]
  rfl

theorem process_ext (c : fastqc_collation) (arg : ModulesArg) {fs g : FS}
    (hagree : FS.agreeOn c.fastqcfiles fs g) :
    (c.process fs arg).1 = (c.process g arg).1
    ∧ FS.agreeOn (c.fastqcfiles ++ (modulesOf c arg).map (outPath c))
        (c.process fs arg).2 (c.process g arg).2 := by
  rw [process_unfold, process_unfold]
  refine processFiles_ext c (modulesOf c arg)
    (c.fastqcfiles ++ (modulesOf c arg).map (outPath c)) ?_ c.fastqcfiles _ _ ?_ ?_
  · intro m hm
    exact List.mem_append.mpr (Or.inr (List.mem_map_of_mem _ hm))
  · intro f hf
    exact List.mem_append.mpr (Or.inl hf)
  · intro q hq
    rw [removeOld_files, removeOld_files]
    by_cases hqm : q ∈ (modulesOf c arg).map (outPath c)
    · rw [if_pos hqm, if_pos hqm]
    · rw [if_neg hqm, if_neg hqm]
      rcases List.mem_append.mp hq with hin | hout
      · exact hagree q hin
      · exact absurd hout hqm

/-- C6: with the output paths disjoint from the discovered input files
(the run leaves its own inputs intact), re-running `process` over the
state left by a successful first run succeeds again and writes
byte-identical output files: stale outputs are deleted up front, never
appended to. -/
theorem C6_rerun_byte_identical (c : fastqc_collation) (fs fs₁ : FS) (arg : ModulesArg)
    (hdisj : ∀ m ∈ modulesOf c arg, outPath c m ∉ c.fastqcfiles)
    (hrun : c.process fs arg = (.ok (), fs₁)) :
    (c.process fs₁ arg).1 = .ok ()
    ∧ ∀ m ∈ modulesOf c arg,
        ((c.process fs₁ arg).2).files (outPath c m) = fs₁.files (outPath c m) := by
  have hagree : FS.agreeOn c.fastqcfiles fs₁ fs := by
    intro q hq
    have hq' : q ∉ (modulesOf c arg).map (outPath c) := by
      intro hmem
      obtain ⟨m, hm, hqm⟩ := List.mem_map.mp hmem
      exact hdisj m hm (hqm ▸ hq)
    have h0 := process_files_other c fs arg hq'
    rw [hrun] at h0
    exact h0
  have hext := process_ext c arg hagree
  constructor
  · rw [hext.1, hrun]
  · intro m hm
    have h2 := hext.2 (outPath c m)
      (List.mem_append.mpr (Or.inr (List.mem_map_of_mem _ hm)))
    rw [hrun] at h2
    exact h2

theorem processModsReparse_cons (c : fastqc_collation) (filepath : Str) (fs : FS)
    (m : Str) (rest : List Str) :
    processModsReparse c filepath fs (m :: rest)
      = match fastqc_report.init fs filepath with
        | .error e => (.error e, fs)
        | .ok qc =>
          match _process_mod c fs filepath qc m (outPath c m) (fs.isfile (outPath c m)) with
          | (.ok _, fs') => processModsReparse c filepath fs' rest
          | r => r := rfl

theorem processModsReparse_eq (c : fastqc_collation) (filepath : Str) (qc : fastqc_report) :
    ∀ (modules : List Str) (fs : FS),
      (∀ m ∈ modules, outPath c m ≠ filepath) →
      fastqc_report.init fs filepath = .ok qc →
      processModsReparse c filepath fs modules = processMods c filepath qc fs modules
  | [], _, _, _ => rfl
  | m :: rest, fs, hne, hqc => by
    rw [processModsReparse_cons, hqc, processMods_cons]
    dsimp only
    cases hstep : _process_mod c fs filepath qc m (outPath c m) (fs.isfile (outPath c m)) with
    | mk res fs' =>
      cases res with
      | ok u =>
        dsimp only
        have hfp : fs'.files filepath = fs.files filepath := by
          have h0 := _process_mod_files_other c fs filepath qc m (outPath c m)
            (fs.isfile (outPath c m)) (Ne.symm (hne m (List.mem_cons_self _ _)))
          rw [hstep] at h0
          exact h0
        refine processModsReparse_eq c filepath qc rest fs'
          (fun m' hm' => hne m' (List.mem_cons_of_mem _ hm')) ?_
        rw [fastqc_report.init_ext filepath hfp]
        exact hqc
      | error e =>
        dsimp only

theorem processFilesReparse_cons (c : fastqc_collation) (modules : List Str) (fs : FS)
    (f : Str) (rest : List Str) :
    processFilesReparse c modules fs (f :: rest)
      = match processModsReparse c f fs modules with
        | (.ok _, fs') => processFilesReparse c modules fs' rest
        | r => r := rfl

theorem parseAll_ext : ∀ (files : List Str) {fs g : FS},
    (∀ f ∈ files, fs.files f = g.files f) →
    parseAll fs files = parseAll g files
  | [], _, _, _ => rfl
  | f :: rest, fs, g, h => by
    unfold parseAll
    rw [fastqc_report.init_ext f (h f (List.mem_cons_self _ _)),
        parseAll_ext rest (fun f' hf' => h f' (List.mem_cons_of_mem _ hf'))]

theorem processFilesReparse_eq (c : fastqc_collation) (modules : List Str) :
    ∀ (files : List Str) (fs : FS) (qcs : List fastqc_report),
      (∀ f ∈ files, ∀ m ∈ modules, outPath c m ≠ f) →
      parseAll fs files = .ok qcs →
      processFilesReparse c modules fs files = processFiles c modules fs files
  | [], _, _, _, _ => rfl
  | f :: rest, fs, qcs, hne, hpar => by
    unfold parseAll at hpar
    cases hqc : fastqc_report.init fs f with
    | error e =>
      rw [hqc] at hpar
      exact absurd hpar (by simp [Bind.bind, Except.bind])
    | ok qc =>
      rw [hqc] at hpar
      simp only [Bind.bind, Except.bind] at hpar
      cases hrest : parseAll fs rest with
      | error e => rw [hrest] at hpar; exact absurd hpar (by simp)
      | ok qcs' =>
        rw [processFilesReparse_cons, processFiles_cons, hqc]
        dsimp only
        rw [processModsReparse_eq c f qc modules fs (fun m hm => hne f (List.mem_cons_self _ _) m hm) hqc]
        cases hstep : processMods c f qc fs modules with
        | mk res fs' =>
          cases res with
          | ok u =>
            dsimp only
            have hagree : ∀ f' ∈ rest, fs'.files f' = fs.files f' := by
              intro f' hf'
              have hnotin : f' ∉ modules.map (outPath c) := by
                intro hmem
                obtain ⟨m, hm, he⟩ := List.mem_map.mp hmem
                exact hne f' (List.mem_cons_of_mem _ hf') m hm he
              have h0 := processMods_files_other c f qc modules fs hnotin
              rw [hstep] at h0
              exact h0
            refine processFilesReparse_eq c modules rest fs' qcs'
              (fun f' hf' => hne f' (List.mem_cons_of_mem _ hf')) ?_
            rw [parseAll_ext rest hagree]
            exact hrest
          | error e =>
            dsimp only

theorem processReparse_unfold (c : fastqc_collation) (fs : FS) (arg : ModulesArg) :
    c.processReparse fs arg
      = processFilesReparse c (modulesOf c arg)
          (removeOld c (fs.makedirs c.out_dir) (modulesOf c arg)) c.fastqcfiles := rfl

/-- C7: parsing each file once and reusing the ModuleSet across the
requested modules (the source's strategy) produces exactly the same
result and file-system state as re-parsing the file once per requested
module, provided the output paths do not collide with the input files
and all inputs parse. -/
theorem C7_reparse_equiv (c : fastqc_collation) (fs : FS) (arg : ModulesArg)
    (qcs : List fastqc_report)
    (hdisj : ∀ m ∈ modulesOf c arg, outPath c m ∉ c.fastqcfiles)
    (hpar : parseAll fs c.fastqcfiles = .ok qcs) :
    c.processReparse fs arg = c.process fs arg := by
  rw [processReparse_unfold, process_unfold]
  have hagree : ∀ f ∈ c.fastqcfiles,
      (removeOld c (fs.makedirs c.out_dir) (modulesOf c arg)).files f = fs.files f := by
    intro f hf
    rw [removeOld_files]
    have : f ∉ (modulesOf c arg).map (outPath c) := by
      intro hmem
      obtain ⟨m, hm, he⟩ := List.mem_map.mp hmem
      exact hdisj m hm (he ▸ hf)
    rw [if_neg this]
    rfl
  refine processFilesReparse_eq c (modulesOf c arg) c.fastqcfiles _ qcs ?_ ?_
  · intro f hf m hm he
    exact hdisj m hm (he ▸ hf)
  · rw [parseAll_ext c.fastqcfiles hagree]
    exact hpar

set_option maxRecDepth 1000000 in
theorem C6_witness :
    (exColl.process ((exColl.process exFS .all).2) .all).1 = .ok ()
    ∧ ∀ m ∈ modulesOf exColl .all,
        ((exColl.process ((exColl.process exFS .all).2) .all).2).files (outPath exColl m)
          = ((exColl.process exFS .all).2).files (outPath exColl m) :=
  C6_rerun_byte_identical exColl exFS ((exColl.process exFS .all).2) .all
    (by decide)
    (by
      have h1 : (exColl.process exFS .all).1 = .ok () := by decide
      calc exColl.process exFS .all
          = ((exColl.process exFS .all).1, (exColl.process exFS .all).2) := rfl
        _ = (.ok (), (exColl.process exFS .all).2) := by rw [h1])

set_option maxRecDepth 1000000 in
theorem C7_witness :
    exColl.processReparse exFS .all = exColl.process exFS .all :=
  C7_reparse_equiv exColl exFS .all exQcs (by decide) (by decide)

theorem lineCount_append (a b : Str) : lineCount (a ++ b) = lineCount a + lineCount b :=
  List.count_append _ _ _

theorem nlFree_count {s : Str} (h : nlFree s = true) : lineCount s = 0 := by
  unfold nlFree at h
  exact beq_iff_eq.mp h

theorem nlFree_append {a b : Str} (ha : nlFree a = true) (hb : nlFree b = true) :
    nlFree (a ++ b) = true := by
  unfold nlFree at *
  rw [List.count_append]
  rw [beq_iff_eq] at *
  omega

theorem joinSep_nlFree {sep : Str} (hsep : nlFree sep = true) :
    ∀ {fields : List Str}, (∀ f ∈ fields, nlFree f = true) →
      nlFree (joinSep sep fields) = true
  | [], _ => rfl
  | [f], h => h f (List.mem_singleton_self _)
  | f :: g :: rest, h => by
    show nlFree (f ++ sep ++ joinSep sep (g :: rest)) = true
    exact nlFree_append (nlFree_append (h f (List.mem_cons_self _ _)) hsep)
      (joinSep_nlFree hsep (fun f' hf' => h f' (List.mem_cons_of_mem _ hf')))

theorem lineCount_line {sep : Str} (hsep : nlFree sep = true) {fields : List Str}
    (hf : ∀ f ∈ fields, nlFree f = true) :
    lineCount (joinSep sep fields ++ nl) = 1 := by
  rw [lineCount_append, nlFree_count (joinSep_nlFree hsep hf)]
  rfl

theorem lineCount_body {sep : Str} (hsep : nlFree sep = true) :
    ∀ {rows : List (List Str)}, (∀ r ∈ rows, ∀ f ∈ r, nlFree f = true) →
      lineCount ((rows.map (fun r => joinSep sep r ++ nl)).flatten) = rows.length
  | [], _ => rfl
  | r :: rest, h => by
    rw [List.map_cons, List.flatten_cons, lineCount_append,
        lineCount_line hsep (h r (List.mem_cons_self _ _)),
        lineCount_body hsep (fun r' hr' f hf => h r' (List.mem_cons_of_mem _ hr') f hf),
        List.length_cons]
    omega

theorem seriesWithProv_nlFree {pairs : List (Str × Str)} {stub path : Str}
    (hp : ∀ kv ∈ pairs, nlFree kv.1 = true ∧ nlFree kv.2 = true)
    (hs : nlFree stub = true) (hpath : nlFree path = true) :
    ∀ kv ∈ seriesWithProv pairs stub path, nlFree kv.1 = true ∧ nlFree kv.2 = true := by
  unfold seriesWithProv
  intro kv hkv
  rcases dictUpsert_mem hkv with h1 | rfl
  · rcases dictUpsert_mem h1 with h2 | rfl
    · exact hp kv h2
    · exact ⟨(by decide : nlFree ("Filestub".toList) = true), hs⟩
  · exact ⟨(by decide : nlFree ("Filepath".toList) = true), hpath⟩

theorem dfSetCol_rows_length (cols : List Str) (rows : List (List Str)) (name v : Str) :
    (dfSetCol cols rows name v).2.length = rows.length := by
  unfold dfSetCol
  split <;> simp

theorem dfSetCol_rows_nlFree {cols : List Str} {rows : List (List Str)} {name v : Str}
    (hrows : ∀ r ∈ rows, ∀ f ∈ r, nlFree f = true) (hv : nlFree v = true) :
    ∀ r ∈ (dfSetCol cols rows name v).2, ∀ f ∈ r, nlFree f = true := by
  unfold dfSetCol
  split
  · intro r hr f hf
    obtain ⟨r0, hr0, rfl⟩ := List.mem_map.mp hr
    rcases List.mem_or_eq_of_mem_set hf with hf0 | rfl
    · exact hrows r0 hr0 f hf0
    · exact hv
  · intro r hr f hf
    obtain ⟨r0, hr0, rfl⟩ := List.mem_map.mp hr
    rcases List.mem_append.mp hf with hf0 | hf1
    · exact hrows r0 hr0 f hf0
    · rw [List.mem_singleton.mp hf1]
      exact hv

theorem dfSetCol_cols_nlFree {cols : List Str} {rows : List (List Str)} {name v : Str}
    (hcols : ∀ cl ∈ cols, nlFree cl = true) (hname : nlFree name = true) :
    ∀ cl ∈ (dfSetCol cols rows name v).1, nlFree cl = true := by
  unfold dfSetCol
  split
  · exact hcols
  · intro cl hcl
    rcases List.mem_append.mp hcl with h | h
    · exact hcols cl h
    · rw [List.mem_singleton.mp h]
      exact hname

theorem _process_mod_ok_inv {c : fastqc_collation} {fs : FS} {filepath : Str}
    {qc : fastqc_report} {module out : Str} {append : Bool}
    (h : (_process_mod c fs filepath qc module out append).1 = .ok ()) :
    module ∈ c.modules ∧ ∃ md, dictGet qc.modules module = some md := by
  unfold _process_mod at h
  by_cases hm : module ∈ c.modules
  · refine ⟨hm, ?_⟩
    rw [if_pos hm] at h
    cases hget : dictGet qc.modules module with
    | none => rw [hget] at h; exact absurd h (by simp)
    | some md => exact ⟨md, rfl⟩
  · rw [if_neg hm] at h
    exact absurd h (by simp)

theorem qcNlFree_mod {qc : fastqc_report} {m : Str} {md : fastqc_module}
    (hq : qcNlFree qc = true) (hget : dictGet qc.modules m = some md) :
    modNlFree md = true := by
  unfold qcNlFree at hq
  rw [Bool.and_eq_true] at hq
  have hall := List.all_eq_true.mp hq.1
  unfold dictGet at hget
  cases hfind : qc.modules.find? (fun p => p.1 == m) with
  | none => rw [hfind] at hget; cases hget
  | some kv =>
    rw [hfind] at hget
    simp only [Option.map] at hget
    have hmem := List.mem_of_find?_eq_some hfind
    cases hget
    exact hall kv hmem

theorem qcNlFree_stub {qc : fastqc_report} (hq : qcNlFree qc = true) :
    nlFree qc.filestub = true := by
  unfold qcNlFree at hq
  rw [Bool.and_eq_true] at hq
  exact hq.2

theorem contribution_eq {qc : fastqc_report} {m : Str} {md : fastqc_module}
    (hget : dictGet qc.modules m = some md) :
    contribution qc m = contribMod md := by
  unfold contribution
  rw [hget]

theorem _process_mod_ok_count (c : fastqc_collation) (fs : FS) (filepath : Str)
    (qc : fastqc_report) (module out : Str) (append : Bool) (md : fastqc_module)
    (hmem : module ∈ c.modules) (hget : dictGet qc.modules module = some md)
    (hsep : nlFree c.sep = true) (hmd : modNlFree md = true)
    (hstub : nlFree qc.filestub = true) (hpath : nlFree filepath = true) :
    (_process_mod c fs filepath qc module out append).1 = .ok ()
    ∧ Option.map lineCount
        (((_process_mod c fs filepath qc module out append).2).files out)
        = some ((if append then lineCount ((fs.files out).getD []) else 1)
            + contribMod md) := by
  unfold _process_mod
  rw [if_pos hmem, hget]
  dsimp only
  unfold modNlFree at hmd
  cases hdata : md.data with
  | series pairs =>
    rw [hdata] at hmd
    dsimp only at hmd
    have hcontrib : contribMod md = 1 := by
      unfold contribMod
      rw [hdata]
    have hpairs : ∀ kv ∈ pairs, nlFree kv.1 = true ∧ nlFree kv.2 = true := by
      intro kv hkv
      have h1 := List.all_eq_true.mp hmd kv hkv
      rw [Bool.and_eq_true] at h1
      exact h1
    have hprov := seriesWithProv_nlFree hpairs hstub hpath
    have hheader : lineCount (joinSep c.sep
        ((seriesWithProv pairs qc.filestub filepath).map (fun p => p.1)) ++ nl) = 1 := by
      refine lineCount_line hsep ?_
      intro f hf
      obtain ⟨kv, hkv, rfl⟩ := List.mem_map.mp hf
      exact (hprov kv hkv).1
    have hdataline : lineCount (joinSep c.sep
        ((seriesWithProv pairs qc.filestub filepath).map (fun p => p.2)) ++ nl) = 1 := by
      refine lineCount_line hsep ?_
      intro f hf
      obtain ⟨kv, hkv, rfl⟩ := List.mem_map.mp hf
      exact (hprov kv hkv).2
    rw [hcontrib]
    cases append with
    | true =>
      refine ⟨rfl, ?_⟩
      simp only [FS.append, FS.write, eq_self_iff_true, if_true, Option.map_some']
      rw [lineCount_append, hdataline]
    | false =>
      refine ⟨rfl, ?_⟩
      simp only [FS.write, eq_self_iff_true, if_true, Bool.false_eq_true, if_false,
                 Option.map_some']
      rw [lineCount_append, hheader, hdataline]
  | frame cols rows =>
    rw [hdata] at hmd
    dsimp only at hmd
    rw [Bool.and_eq_true] at hmd
    have hcontrib : contribMod md = rows.length := by
      unfold contribMod
      rw [hdata]
    have hcols : ∀ cl ∈ cols, nlFree cl = true := List.all_eq_true.mp hmd.1
    have hrows : ∀ r ∈ rows, ∀ f ∈ r, nlFree f = true := by
      intro r hr f hf
      exact List.all_eq_true.mp (List.all_eq_true.mp hmd.2 r hr) f hf
    have hrows1 : ∀ r ∈ (dfSetCol cols rows ("Filestub".toList) qc.filestub).2,
        ∀ f ∈ r, nlFree f = true := dfSetCol_rows_nlFree hrows hstub
    have hrows2 : ∀ r ∈ (frameWithProv cols rows qc.filestub filepath).2,
        ∀ f ∈ r, nlFree f = true := dfSetCol_rows_nlFree hrows1 hpath
    have hcols1 : ∀ cl ∈ (dfSetCol cols rows ("Filestub".toList) qc.filestub).1,
        nlFree cl = true :=
      dfSetCol_cols_nlFree hcols (by decide)
    have hcols2 : ∀ cl ∈ (frameWithProv cols rows qc.filestub filepath).1,
        nlFree cl = true :=
      dfSetCol_cols_nlFree hcols1 (by decide)
    have hlen : (frameWithProv cols rows qc.filestub filepath).2.length = rows.length := by
      unfold frameWithProv
      rw [dfSetCol_rows_length, dfSetCol_rows_length]
    have hheader : lineCount (joinSep c.sep
        (frameWithProv cols rows qc.filestub filepath).1 ++ nl) = 1 :=
      lineCount_line hsep hcols2
    have hbody : lineCount (((frameWithProv cols rows qc.filestub filepath).2.map
        (fun r => joinSep c.sep r ++ nl)).flatten) = rows.length := by
      rw [lineCount_body hsep hrows2]
      exact hlen
    rw [hcontrib]
    cases append with
    | true =>
      refine ⟨rfl, ?_⟩
      simp only [FS.append, FS.write, eq_self_iff_true, if_true, Option.map_some']
      rw [lineCount_append, hbody]
    | false =>
      refine ⟨rfl, ?_⟩
      simp only [FS.write, eq_self_iff_true, if_true, Bool.false_eq_true, if_false,
                 Option.map_some']
      rw [lineCount_append, hheader, hbody]

theorem processMods_count (c : fastqc_collation) (filepath : Str) (qc : fastqc_report)
    (hsep : nlFree c.sep = true) (hq : qcNlFree qc = true) (hpath : nlFree filepath = true) :
    ∀ (modules : List Str) (fs fs' : FS),
      (modules.map (outPath c)).Nodup →
      processMods c filepath qc fs modules = (.ok (), fs') →
      ∀ m ∈ modules,
        Option.map lineCount (fs'.files (outPath c m))
          = some ((match Option.map lineCount (fs.files (outPath c m)) with
                   | none => 1 | some n => n) + contribution qc m)
  | [], fs, fs', _, hrun, m, hm => absurd hm (List.not_mem_nil m)
  | m0 :: rest, fs, fs', hnd, hrun, m, hm => by
    rw [processMods_cons] at hrun
    cases hstep : _process_mod c fs filepath qc m0 (outPath c m0)
        (fs.isfile (outPath c m0)) with
    | mk res fs1 =>
      rw [hstep] at hrun
      cases res with
      | error e => exact absurd hrun (by simp)
      | ok u =>
        cases u
        dsimp only at hrun
        have hok : (_process_mod c fs filepath qc m0 (outPath c m0)
            (fs.isfile (outPath c m0))).1 = .ok () := by
          rw [hstep]
        obtain ⟨hmem0, md0, hget0⟩ := _process_mod_ok_inv hok
        have hcnt := _process_mod_ok_count c fs filepath qc m0 (outPath c m0)
          (fs.isfile (outPath c m0)) md0 hmem0 hget0 hsep
          (qcNlFree_mod hq hget0) (qcNlFree_stub hq) hpath
        rw [hstep] at hcnt
        have hnd' : (rest.map (outPath c)).Nodup := (List.nodup_cons.mp hnd).2
        have hm0rest : outPath c m0 ∉ rest.map (outPath c) := (List.nodup_cons.mp hnd).1
        rcases List.mem_cons.mp hm with rfl | hmrest
        · -- the head module: later modules never touch its output path
          have hpm := processMods_files_other c filepath qc rest fs1 hm0rest
          rw [hrun] at hpm
          rw [hpm, hcnt.2]
          -- relate the append flag to the initial state of the file
          cases hfo : fs.files (outPath c m) with
          | none =>
            have hisf : fs.isfile (outPath c m) = false := by
              unfold FS.isfile
              rw [hfo]
              rfl
            rw [hisf, contribution_eq hget0]
            rfl
          | some s0 =>
            have hisf : fs.isfile (outPath c m) = true := by
              unfold FS.isfile
              rw [hfo]
              rfl
            rw [hisf, contribution_eq hget0]
            rfl
        · -- a later module: the head write does not touch its output path
          have hne : outPath c m ≠ outPath c m0 := by
            intro he
            exact hm0rest (he ▸ List.mem_map_of_mem _ hmrest)
          have hbase := _process_mod_files_other c fs filepath qc m0 (outPath c m0)
            (fs.isfile (outPath c m0)) hne
          rw [hstep] at hbase
          have := processMods_count c filepath qc hsep hq hpath rest fs1 fs' hnd' hrun m hmrest
          rw [hbase] at this
          exact this

theorem processFiles_count (c : fastqc_collation) (modules : List Str)
    (hnd : (modules.map (outPath c)).Nodup) (hsep : nlFree c.sep = true) :
    ∀ (files : List Str) (fs fs' g : FS) (qcs : List fastqc_report),
      (∀ f ∈ files, fs.files f = g.files f) →
      parseAll g files = .ok qcs →
      (∀ f ∈ files, f ∉ modules.map (outPath c)) →
      (∀ f ∈ files, nlFree f = true) →
      (∀ qc ∈ qcs, qcNlFree qc = true) →
      processFiles c modules fs files = (.ok (), fs') →
      ∀ m ∈ modules,
        Option.map lineCount (fs'.files (outPath c m))
          = expectedCount m (Option.map lineCount (fs.files (outPath c m))) qcs
  | [], fs, fs', g, qcs, _, hpar, _, _, _, hrun, m, hm => by
    cases hpar
    cases hrun
    rfl
  | f :: rest, fs, fs', g, qcs, hag, hpar, hout, hnlf, hqs, hrun, m, hm => by
    unfold parseAll at hpar
    cases hqcg : fastqc_report.init g f with
    | error e =>
      rw [hqcg] at hpar
      exact absurd hpar (by simp [Bind.bind, Except.bind])
    | ok qc =>
      rw [hqcg] at hpar
      simp only [Bind.bind, Except.bind] at hpar
      cases hrest : parseAll g rest with
      | error e => rw [hrest] at hpar; exact absurd hpar (by simp)
      | ok qcs' =>
        rw [hrest] at hpar
        simp only [Except.bind] at hpar
        cases hpar
        rw [processFiles_cons] at hrun
        have hqcf : fastqc_report.init fs f = .ok qc := by
          rw [fastqc_report.init_ext f (hag f (List.mem_cons_self _ _))]
          exact hqcg
        rw [hqcf] at hrun
        dsimp only at hrun
        cases hstep : processMods c f qc fs modules with
        | mk res fs1 =>
          rw [hstep] at hrun
          cases res with
          | error e => exact absurd hrun (by simp)
          | ok u =>
            cases u
            dsimp only at hrun
            have hmc := processMods_count c f qc hsep
              (hqs qc (List.mem_cons_self _ _)) (hnlf f (List.mem_cons_self _ _))
              modules fs fs1 hnd hstep m hm
            have hagrest : ∀ f' ∈ rest, fs1.files f' = g.files f' := by
              intro f' hf'
              have h0 := processMods_files_other c f qc modules fs
                (hout f' (List.mem_cons_of_mem _ hf'))
              rw [hstep] at h0
              rw [h0]
              exact hag f' (List.mem_cons_of_mem _ hf')
            have hrec := processFiles_count c modules hnd hsep rest fs1 fs' g qcs'
              hagrest hrest (fun f' hf' => hout f' (List.mem_cons_of_mem _ hf'))
              (fun f' hf' => hnlf f' (List.mem_cons_of_mem _ hf'))
              (fun qc' hqc' => hqs qc' (List.mem_cons_of_mem _ hqc')) hrun m hm
            rw [hrec, hmc]
            rfl

theorem expectedCount_some_closed (m : Str) :
    ∀ (qcs : List fastqc_report) (n : Nat),
      expectedCount m (some n) qcs
        = some (n + (qcs.map (fun qc => contribution qc m)).sum)
  | [], n => by simp [expectedCount]
  | qc :: rest, n => by
    show expectedCount m (some (n + contribution qc m)) rest = _
    rw [expectedCount_some_closed m rest]
    rw [List.map_cons, List.sum_cons]
    congr 1
    omega

theorem expectedCount_none_closed (m : Str) (qc : fastqc_report)
    (qcs : List fastqc_report) :
    expectedCount m none (qc :: qcs)
      = some (1 + ((qc :: qcs).map (fun q => contribution q m)).sum) := by
  show expectedCount m (some (1 + contribution qc m)) qcs = _
  rw [expectedCount_some_closed m qcs]
  rw [List.map_cons, List.sum_cons]
  congr 1
  omega

/-- C1 (amended): after a successful full collation run over parses
`qcs` (one per discovered file, in order), each module's output file
holds exactly one header line followed by, for the key-value module,
one data line per file and, for a table module, one data line per table
row of that module in each file — i.e. `1 + Σ contribution` lines,
where a table module's contribution per file is its row count, not 1.
Hypotheses: output paths are distinct and disjoint from the input
files, and the separator, paths and parsed fields carry no newline. -/
theorem C1_header_plus_rows (c : fastqc_collation) (fs fs' : FS)
    (qcs : List fastqc_report)
    (hnd : (c.modules.map (outPath c)).Nodup)
    (hdisj : ∀ f ∈ c.fastqcfiles, f ∉ c.modules.map (outPath c))
    (hpar : parseAll fs c.fastqcfiles = .ok qcs)
    (hsep : nlFree c.sep = true)
    (hq : ∀ qc ∈ qcs, qcNlFree qc = true)
    (hpaths : ∀ f ∈ c.fastqcfiles, nlFree f = true)
    (hrun : c.process fs .all = (.ok (), fs')) :
    ∀ m ∈ c.modules,
      Option.map lineCount (fs'.files (outPath c m)) = expectedCount m none qcs
      ∧ (qcs ≠ [] →
          Option.map lineCount (fs'.files (outPath c m))
            = some (1 + (qcs.map (fun qc => contribution qc m)).sum)) := by
  rw [process_unfold] at hrun
  dsimp only [modulesOf] at hrun
  have hagree : ∀ f ∈ c.fastqcfiles,
      (removeOld c (fs.makedirs c.out_dir) c.modules).files f = fs.files f := by
    intro f hf
    rw [removeOld_files, if_neg (hdisj f hf)]
    rfl
  intro m hm
  have hcount := processFiles_count c c.modules hnd hsep c.fastqcfiles
    (removeOld c (fs.makedirs c.out_dir) c.modules) fs' fs qcs
    hagree hpar hdisj hpaths hq hrun m hm
  have hbase : (removeOld c (fs.makedirs c.out_dir) c.modules).files
      (outPath c m) = none := by
    rw [removeOld_files, if_pos (List.mem_map_of_mem _ hm)]
  rw [hbase] at hcount
  refine ⟨hcount, ?_⟩
  intro hne
  cases qcs with
  | nil => exact absurd rfl hne
  | cons qc qcs' =>
    rw [hcount]
    exact expectedCount_none_closed m qc qcs'

set_option maxRecDepth 1000000 in
/-- C1 counterexample: one discovered report file whose table module
`Tab Mod` has two data rows.  The claim predicts `1 + n = 2` lines for
the table module's output; the finished file actually has `3` lines
(one header plus one line per row, summed over files). -/
theorem C1_counterexample :
    exColl.fastqcfiles.length = 1
    ∧ (exColl.process exFS .all).1 = .ok ()
    ∧ Option.map lineCount
        (((exColl.process exFS .all).2).files (outPath exColl ("Tab Mod".toList)))
        = some 3
    ∧ (3 : Nat) ≠ 1 + exColl.fastqcfiles.length := by
  refine ⟨by decide, by decide, by decide, by decide⟩

set_option maxRecDepth 1000000 in
theorem C1_witness :
    Option.map lineCount
        (((exColl.process exFS .all).2).files (outPath exColl ("Tab Mod".toList)))
      = expectedCount ("Tab Mod".toList) none exQcs
    ∧ Option.map lineCount
        (((exColl.process exFS .all).2).files (outPath exColl ("Tab Mod".toList)))
      = some (1 + (exQcs.map (fun qc => contribution qc ("Tab Mod".toList))).sum) := by
  have h := C1_header_plus_rows exColl exFS ((exColl.process exFS .all).2) exQcs
    (by decide) (by decide) (by decide) (by decide) (by decide) (by decide)
    (by
      have h1 : (exColl.process exFS .all).1 = .ok () := by decide
      calc exColl.process exFS .all
          = ((exColl.process exFS .all).1, (exColl.process exFS .all).2) := rfl
        _ = (.ok (), (exColl.process exFS .all).2) := by rw [h1])
    ("Tab Mod".toList) (by decide)
  exact ⟨h.1, h.2 (by decide)⟩

theorem _process_mod_not_mem (c : fastqc_collation) (fs : FS) (filepath : Str)
    (qc : fastqc_report) (module out : Str) (append : Bool)
    (h : module ∉ c.modules) :
    _process_mod c fs filepath qc module out append
      = (.error (.keyError ("Module not found.".toList)), fs) := by
  unfold _process_mod
  rw [if_neg h]

/-- C2 (amended): requesting a module name that is not in the
discovered universe aborts the run with `KeyError("Module not found.")`
raised during per-file processing — nothing is ever written for that
module — but only after the output directory has been created and any
pre-existing output file for the requested name has been deleted. -/
theorem C2_unknown_module_effects (c : fastqc_collation) (fs : FS) (s f0 : Str)
    (rest : List Str) (qc : fastqc_report)
    (hfiles : c.fastqcfiles = f0 :: rest)
    (hmem : s ∉ c.modules)
    (hne : outPath c s ≠ f0)
    (hparse : fastqc_report.init fs f0 = .ok qc) :
    (c.process fs (.one s)).1 = .error (.keyError ("Module not found.".toList))
    ∧ ((c.process fs (.one s)).2).files (outPath c s) = none
    ∧ ((c.process fs (.one s)).2).dirs c.out_dir = true := by
  rw [process_unfold]
  dsimp only [modulesOf]
  rw [hfiles]
  have hfs2 : (removeOld c (fs.makedirs c.out_dir) [s]).files f0 = fs.files f0 := by
    rw [removeOld_files]
    have hnotin : f0 ∉ ([s] : List Str).map (outPath c) := by
      intro hmem'
      rw [List.map_cons, List.map_nil] at hmem'
      exact hne (List.mem_singleton.mp hmem').symm
    rw [if_neg hnotin]
    rfl
  have hinit2 : fastqc_report.init (removeOld c (fs.makedirs c.out_dir) [s]) f0
      = .ok qc := by
    rw [fastqc_report.init_ext f0 hfs2]
    exact hparse
  rw [processFiles_cons, hinit2]
  dsimp only
  rw [processMods_cons,
      _process_mod_not_mem c _ f0 qc s (outPath c s) _ hmem]
  dsimp only
  refine ⟨rfl, ?_, ?_⟩
  · rw [removeOld_files]
    rw [if_pos (by rw [List.map_cons, List.map_nil]; exact List.mem_singleton_self _)]
  · rw [removeOld_dirs]
    dsimp only [FS.makedirs]
    rw [if_pos rfl]

set_option maxRecDepth 1000000 in
/-- C2 counterexample: before the run the output directory does not
exist and a stale output file for the unknown module name `Nope` does;
the run fails with the unknown-module `KeyError`, yet afterwards the
stale file has been deleted and the output directory has been created —
the output directory is touched before the error surfaces. -/
theorem C2_counterexample :
    c2fs.files (outPath exColl ("Nope".toList)) = some ("STALE".toList)
    ∧ c2fs.dirs exColl.out_dir = false
    ∧ ("Nope".toList) ∉ exColl.modules
    ∧ (exColl.process c2fs (.one ("Nope".toList))).1
        = .error (.keyError ("Module not found.".toList))
    ∧ ((exColl.process c2fs (.one ("Nope".toList))).2).files
        (outPath exColl ("Nope".toList)) = none
    ∧ ((exColl.process c2fs (.one ("Nope".toList))).2).dirs exColl.out_dir = true := by
  refine ⟨by decide, by decide, by decide, by decide, by decide, by decide⟩

set_option maxRecDepth 1000000 in
theorem C2_witness :
    (exColl.process c2fs (.one ("Nope".toList))).1
        = .error (.keyError ("Module not found.".toList))
    ∧ ((exColl.process c2fs (.one ("Nope".toList))).2).files
        (outPath exColl ("Nope".toList)) = none
    ∧ ((exColl.process c2fs (.one ("Nope".toList))).2).dirs exColl.out_dir = true :=
  C2_unknown_module_effects exColl c2fs ("Nope".toList) ("r/A/f".toList) [] c2qc
    (by decide) (by decide) (by decide) (by decide)
